import Mathlib

/-!
# The algorithm zoo: shunting-yard translator

A shallow embedding of `src/shunting-yard/shunting_yard.fmt.c`.

* `stdin` is a `List Char`; the empty list is the stream at end of input, so
  `getchar()` on `[]` is `EOF`, and `ungetc` puts the character just read back
  at the head.
* `stdout` is a list of `Out` events, one per `printf`/`putchar` call site;
  `Out.text` gives the characters each of them writes.
* The `Stack` struct (`top`, `container`, `size`) is a `List Sym` whose head is
  `*top` and whose length is `size`.
* `long` values are natural numbers up to `LONG_MAX`: `gettok` enters
  `scanf("%ld")` only on a digit, so it never reads a sign.  A digit run whose
  value does not fit in `long` is stored as `LONG_MAX`, as the conversion of the
  C library does (the C standard leaves it undefined); the statements about
  numbers assume that they fit.
-/

namespace ShuntingYard

/-! ## Tables -/

/-- The capacity of the stack, `#define STK_CAP 1000`. -/
def STK_CAP : Nat := 1000

/-- The C `enum Sym`. -/
inductive Sym where
  | ADD | SUB | MUL | DIV | POW | LPR | RPR
  deriving DecidableEq, Repr

/-- The anonymous associativity enum of `SYM_ASSOC`. -/
inductive Assoc where
  | LASSOC | RASSOC | NASSOC
  deriving DecidableEq, Repr

open Sym Assoc

/-- The table `SYM_NAMES`. -/
def SYM_NAMES : Sym → String
  | ADD => "ADD" | SUB => "SUB" | MUL => "MUL" | DIV => "DIV"
  | POW => "POW" | LPR => "LPR" | RPR => "RPR"

/-- The table `SYM_ASSOC`. -/
def SYM_ASSOC : Sym → Assoc
  | ADD => LASSOC | SUB => LASSOC | MUL => LASSOC | DIV => LASSOC
  | POW => RASSOC | LPR => NASSOC | RPR => NASSOC

/-- The table `SYM_PREC`. -/
def SYM_PREC : Sym → Int
  | ADD => 0 | SUB => 0 | MUL => 1 | DIV => 1 | POW => 2 | LPR => -1 | RPR => -1

/-- The table `SYM_TBL`, indexed by character code.  Entries without a
designated initializer are zero, which is `ADD`; `gettok` only indexes it with
one of the seven listed characters. -/
def SYM_TBL (c : Char) : Sym :=
  if c = '+' then ADD else if c = '-' then SUB else if c = '*' then MUL
  else if c = '/' then DIV else if c = '^' then POW else if c = '(' then LPR
  else if c = ')' then RPR else ADD

/-- The C `struct Token`: the tag and the union member that goes with it. -/
inductive Token where
  | EOF_T
  | SYM_T (sym : Sym)
  | NUM_T (num : Nat)
  deriving DecidableEq, Repr

/-- The function `op_cmp`: `SYM_PREC[a] - SYM_PREC[b]`. -/
def op_cmp (a b : Sym) : Int := SYM_PREC a - SYM_PREC b

/-- The function `isop`. -/
def isop (c : Char) : Bool :=
  c = '+' || c = '-' || c = '*' || c = '/' || c = '^'

/-- The function `ispar`. -/
def ispar (c : Char) : Bool := c = '(' || c = ')'

/-- The library function `isspace` in the C locale: space, `\t`, `\n`, `\v`,
`\f`, `\r`. -/
def isspace (c : Char) : Bool :=
  c = ' ' || c = '\t' || c = '\n' || c = Char.ofNat 11 || c = Char.ofNat 12 || c = '\r'

/-- The library function `isdigit`. -/
def isdigit (c : Char) : Bool := '0' ≤ c && c ≤ '9'

/-! ## The lexer -/

/-- The largest value of a 64-bit `long`. -/
def LONG_MAX : Nat := 2 ^ 63 - 1

/-- The value of a decimal digit character. -/
def digitVal (c : Char) : Nat := c.toNat - '0'.toNat

/-- The call `scanf("%ld", &num)` on a stream whose head is not white space
and not a sign: it consumes the longest run of digits and stores its decimal
value, or `LONG_MAX` if the value is larger; with no digit it fails (the
`<= 0` branch) and consumes nothing. -/
def scan_long (inp : List Char) : Option (Nat × List Char) :=
  match inp.span isdigit with
  | ([], _) => none
  | (ds, rest) => some (min (ds.foldl (fun a c => 10 * a + digitVal c) 0) LONG_MAX, rest)

/-- The function `gettok`, returning the token and the stream it leaves.  The
`do ... while (isspace(ch))` loop is the recursion; a character that is
neither an operator, a parenthesis nor a digit is consumed and yields
`EOF_T`, as does the end of the stream. -/
def gettok : List Char → Token × List Char
  | [] => (Token.EOF_T, [])
  | ch :: rest =>
    if isspace ch then gettok rest
    else if isop ch || ispar ch then (Token.SYM_T (SYM_TBL ch), rest)
    else if !isdigit ch then (Token.EOF_T, rest)
    else
      match scan_long (ch :: rest) with
      | none => (Token.EOF_T, ch :: rest)
      | some (num, rest') => (Token.NUM_T num, rest')

/-! ## The stack -/

/-- The C `struct Stack`, top of the stack first. -/
abbrev Stack := List Sym

/-- The function `push`: fails, leaving the stack as it is, when `size` equals
`STK_CAP`. -/
def push (val : Sym) (s : Stack) : Bool × Stack :=
  if s.length = STK_CAP then (false, s) else (true, val :: s)

/-- The function `pop`: fails on the empty stack. -/
def pop : Stack → Bool × Stack
  | [] => (false, [])
  | _ :: s => (true, s)

/-! ## The stack as a struct -/

/-- The C `struct Stack` as it lies in memory: `top` is the index in
`container` of the element that the pointer `top` points to, and `none` when
the pointer is null. -/
structure CStack where
  top : Option Nat
  container : List Sym
  size : Nat
  deriving DecidableEq, Repr

/-- The initializer `Stack stk = {0}`: a null `top`, `size` 0 and a zeroed
array. -/
def CStack.init : CStack := ⟨none, List.replicate STK_CAP ADD, 0⟩

/-- The function `push` on the struct.  Under `CStack.wf` the element written
by `*++s->top = val` lies inside the array. -/
def CStack.push (val : Sym) (s : CStack) : Bool × CStack :=
  if s.size = STK_CAP then (false, s)
  else
    match s.top with
    | none => (true, ⟨some 0, s.container.set 0 val, s.size + 1⟩)
    | some t => (true, ⟨some (t + 1), s.container.set (t + 1) val, s.size + 1⟩)

/-- The function `pop` on the struct.  Under `CStack.wf` the pointer that
`--s->top` decrements is not null. -/
def CStack.pop (s : CStack) : Bool × CStack :=
  if s.size = 0 then (false, s)
  else if s.size = 1 then (true, ⟨none, s.container, 0⟩)
  else (true, ⟨s.top.map (· - 1), s.container, s.size - 1⟩)

/-- The invariant of the struct: the array has `STK_CAP` elements, `size` is
at most `STK_CAP`, and `top` is null on the empty stack and points to the
element number `size - 1` otherwise. -/
def CStack.wf (s : CStack) : Prop :=
  s.container.length = STK_CAP ∧ s.size ≤ STK_CAP ∧
    s.top = if s.size = 0 then none else some (s.size - 1)

/-- The stack that the struct holds, top first: the list on which the
translator is modelled. -/
def CStack.symbols (s : CStack) : Stack := (s.container.take s.size).reverse

/-! ## Output -/

/-- One event per output call of the program. -/
inductive Out where
  /-- The call `printf("%ld ", num)`. -/
  | num (n : Nat)
  /-- The call `printf("%s ", SYM_NAMES[s])`. -/
  | name (s : Sym)
  /-- The call `printf("MALFORMED EQ\n")`. -/
  | malformed
  /-- The call `putchar('\n')`. -/
  | nl
  /-- The call `printf("> ")` of the driver. -/
  | prompt
  deriving DecidableEq, Repr

/-- The characters an output event writes. -/
def Out.text : Out → String
  | Out.num n => (Nat.toDigits 10 n).asString ++ " "
  | Out.name s => SYM_NAMES s ++ " "
  | Out.malformed => "MALFORMED EQ\n"
  | Out.nl => "\n"
  | Out.prompt => "> "

/-- The text written by a sequence of output events. -/
def render (out : List Out) : String := String.join (out.map Out.text)

/-! ## The translator -/

/-- What one call of `shunting_yard` does: its return value, the stream it
leaves behind and what it printed. -/
structure Result where
  ret : Bool
  rest : List Char
  out : List Out
  deriving DecidableEq, Repr

/-- The loop of the `RPR` case, `while (stk.size && *stk.top != LPR)`: print
and pop down to the nearest `LPR`. -/
def pop_to_lpr : Stack → List Out → Stack × List Out
  | [], out => ([], out)
  | s :: stk, out =>
    if s ≠ LPR then pop_to_lpr (pop (s :: stk)).2 (out ++ [Out.name s])
    else (s :: stk, out)

/-- The loop of the operator case,
`while (stk.size && *stk.top != LPR && *stk.top != RPR)`, for the operator
token `o`. -/
def pop_ops (o : Sym) : Stack → List Out → Stack × List Out
  | [], out => ([], out)
  | s :: stk, out =>
    if s ≠ LPR ∧ s ≠ RPR then
      if op_cmp o s < 0 then pop_ops o (pop (s :: stk)).2 (out ++ [Out.name s])
      else if op_cmp o s = 0 ∧ SYM_ASSOC s = LASSOC then
        pop_ops o (pop (s :: stk)).2 (out ++ [Out.name s])
      else (s :: stk, out)
    else (s :: stk, out)

/-- The loop after the main loop, `while (stk.size)`: `true` in the first
component means that it met an `LPR`, printed `MALFORMED EQ` and returned. -/
def drain : Stack → List Out → Bool × List Out
  | [], out => (false, out)
  | s :: stk, out =>
    if s = LPR then (true, out ++ [Out.malformed])
    else drain (pop (s :: stk)).2 (out ++ [Out.name s])

/-- The code after the main loop: drain the stack, then return according to
the character `c` that ended the loop (`newline` says that it was a newline rather
than `EOF`). -/
def finish (newline : Bool) (inp : List Char) (stk : Stack) (out : List Out) : Result :=
  match drain stk out with
  | (true, out') => ⟨true, inp, out'⟩
  | (false, out') =>
    if newline then ⟨true, inp, out' ++ [Out.nl]⟩ else ⟨false, inp, out'⟩

/-- The `SYM_T` case of the switch.  `Sum.inr` is the stack and output with
which the loop goes on; `Sum.inl` is the output with which the function
returns `true` from inside the loop (a `)` with no `LPR` below it).  The
results of `push` are dropped, as in the source. -/
def on_sym (sym : Sym) (stk : Stack) (out : List Out) : List Out ⊕ (Stack × List Out) :=
  if sym = LPR then Sum.inr ((push sym stk).2, out)
  else if sym = RPR then
    match pop_to_lpr stk out with
    | ([], out') => Sum.inl (out' ++ [Out.malformed])
    | (top :: stk', out') =>
      if top ≠ LPR then Sum.inl (out' ++ [Out.malformed])
      else Sum.inr ((pop (top :: stk')).2, out')
  else
    match pop_ops sym stk out with
    | (stk', out') => Sum.inr ((push sym stk').2, out')

/-- The main `while (true)` loop of `shunting_yard` followed by the code after
it.  Every iteration consumes a character, so the fuel `inp.length + 1` that
`shunting_yard` supplies is never used up. -/
def loop : Nat → List Char → Stack → List Out → Option Result
  | 0, _, _, _ => none
  | fuel + 1, inp, stk, out =>
    match inp with
    | [] => some (finish false [] stk out)
    | c :: rest =>
      if c = '\n' then some (finish true rest stk out)
      else
        match gettok (c :: rest) with
        | (Token.EOF_T, inp') => some ⟨false, inp', out⟩
        | (Token.SYM_T sym, inp') =>
          match on_sym sym stk out with
          | Sum.inl out' => some ⟨true, inp', out'⟩
          | Sum.inr (stk', out') => loop fuel inp' stk' out'
        | (Token.NUM_T num, inp') => loop fuel inp' stk (out ++ [Out.num num])

/-- The function `shunting_yard`, started on the stream `inp` with an empty
stack. -/
def shunting_yard (inp : List Char) : Option Result :=
  loop (inp.length + 1) inp [] []

/-- The loop of `main`: print the prompt, stop at end of input, otherwise
call `shunting_yard` and stop when it returns `false`.  The result is
everything the program prints. -/
def main_loop : Nat → List Char → List Out → Option (List Out)
  | 0, _, _ => none
  | fuel + 1, inp, out =>
    match inp with
    | [] => some (out ++ [Out.prompt, Out.nl])
    | _ :: _ =>
      match shunting_yard inp with
      | none => none
      | some r =>
        if !r.ret then some (out ++ Out.prompt :: r.out ++ [Out.nl])
        else main_loop fuel r.rest (out ++ Out.prompt :: r.out)

/-- The function `main` on the whole of standard input. -/
def main (inp : List Char) : Option (List Out) :=
  main_loop (inp.length + 1) inp []

/-! ## Vocabulary of the statements -/

/-- The main loop on the fuel that `shunting_yard` gives it, from any stack
and output. -/
def run (inp : List Char) (stk : Stack) (out : List Out) : Option Result :=
  loop (inp.length + 1) inp stk out

/-- A token as it is written on a line: a number or one of the seven
symbols. -/
inductive Lexeme where
  | num (n : Nat)
  | sym (s : Sym)
  deriving DecidableEq, Repr

/-- The character that stands for a symbol. -/
def symChar : Sym → Char
  | ADD => '+' | SUB => '-' | MUL => '*' | DIV => '/' | POW => '^'
  | LPR => '(' | RPR => ')'

/-- The characters of a token; a number is written in decimal. -/
def Lexeme.chars : Lexeme → List Char
  | Lexeme.num n => Nat.toDigits 10 n
  | Lexeme.sym s => [symChar s]

/-- Says that a token, if it is a number, fits in a `long`. -/
def Lexeme.inRange : Lexeme → Bool
  | Lexeme.num n => decide (n ≤ LONG_MAX)
  | Lexeme.sym _ => true

/-- Says that the numbers among the tokens fit in a `long`. -/
def inRange (ts : List Lexeme) : Bool := ts.all Lexeme.inRange

/-- The token as `gettok` returns it: a number that does not fit in a `long`
is stored as `LONG_MAX`. -/
def Lexeme.stored : Lexeme → Lexeme
  | Lexeme.num n => Lexeme.num (min n LONG_MAX)
  | Lexeme.sym s => Lexeme.sym s

/-- A run of `k` blanks. -/
def blanks (k : Nat) : List Char := List.replicate k ' '

/-- The characters of a sequence of tokens, each with the number of blanks
written before it. -/
def layout : List (Nat × Lexeme) → List Char
  | [] => []
  | (k, t) :: r => blanks k ++ t.chars ++ layout r

/-- Says that the list does not start with a number written without a blank
before it. -/
def noDigitAhead : List (Nat × Lexeme) → Bool
  | (0, Lexeme.num _) :: _ => false
  | _ => true

/-- Says that a number that directly follows a number has a blank before
it, so that the two are two tokens. -/
def spaced : List (Nat × Lexeme) → Bool
  | [] => true
  | (_, Lexeme.num _) :: r => noDigitAhead r && spaced r
  | (_, Lexeme.sym _) :: r => spaced r

/-- The layout of the scenarios of the specification: no blank before the
first token, one blank before each of the others. -/
def single : List Lexeme → List (Nat × Lexeme)
  | [] => []
  | t :: r => (0, t) :: r.map (fun x => (1, x))

/-- A line in the layout of the scenarios, with its newline. -/
def line (ts : List Lexeme) : List Char := layout (single ts) ++ ['\n']

/-- Says that the stream does not start with a digit. -/
def noDigit (tail : List Char) : Prop := ∀ c ∈ tail.head?, isdigit c = false

/-- A character that `Nat.toDigits 10` can produce. -/
def IsDig (c : Char) : Prop := ∃ d, d < 10 ∧ c = Nat.digitChar d

/-- The loop body applied to a sequence of tokens: `Sum.inr` is the stack
and output after the last one, `Sum.inl` the output when `on_sym` returns from
inside the loop before that. -/
def steps : List Lexeme → Stack → List Out → List Out ⊕ (Stack × List Out)
  | [], stk, out => Sum.inr (stk, out)
  | Lexeme.num n :: ts, stk, out => steps ts stk (out ++ [Out.num n])
  | Lexeme.sym s :: ts, stk, out =>
    match on_sym s stk out with
    | Sum.inl out' => Sum.inl out'
    | Sum.inr (stk', out') => steps ts stk' out'

/-! ## Infix expressions and their standard reading -/

/-- The five binary operators. -/
inductive Op where
  | add | sub | mul | div | pow
  deriving DecidableEq, Repr

/-- The symbol of an operator. -/
def Op.sym : Op → Sym
  | Op.add => ADD | Op.sub => SUB | Op.mul => MUL | Op.div => DIV | Op.pow => POW

/-- The operator of a symbol, if it is one. -/
def opOf : Sym → Option Op
  | ADD => some Op.add | SUB => some Op.sub | MUL => some Op.mul | DIV => some Op.div
  | POW => some Op.pow | LPR => none | RPR => none

/-- Standard precedence: `^` above `*` and `/`, these above `+` and `-`. -/
def Op.prec : Op → Nat
  | Op.add => 0 | Op.sub => 0 | Op.mul => 1 | Op.div => 1 | Op.pow => 2

/-- Standard associativity: `^` groups to the right, the others to the
left. -/
def Op.rightAssoc : Op → Bool
  | Op.pow => true
  | _ => false

/-- An infix expression as it is grouped: a literal, a sub-expression written
in parentheses, or an operator between two operands. -/
inductive Expr where
  | num (n : Nat)
  | paren (e : Expr)
  | bin (l : Expr) (o : Op) (r : Expr)
  deriving DecidableEq, Repr

/-- The tokens of an expression, in the order in which they are written. -/
def Expr.toks : Expr → List Lexeme
  | Expr.num n => [Lexeme.num n]
  | Expr.paren e => Lexeme.sym LPR :: (e.toks ++ [Lexeme.sym RPR])
  | Expr.bin l o r => l.toks ++ Lexeme.sym o.sym :: r.toks

/-- How tightly the top of an expression binds: the precedence of its
operator, and more than any operator for a literal or a parenthesis. -/
def Expr.level : Expr → Nat
  | Expr.bin _ o _ => o.prec
  | _ => 3

/-- Says that the grouping is the one standard precedence and associativity
give to the tokens, that is the parse by the grammar
`E ::= T | E + T | E - T`, `T ::= F | T * F | T / F`, `F ::= P | P ^ F`,
`P ::= n | ( E )`: an operand binds at least as tightly as its operator, and
strictly more tightly on the right of a left-associative operator and on the
left of `^`. -/
def Expr.standard : Expr → Bool
  | Expr.num _ => true
  | Expr.paren e => e.standard
  | Expr.bin l o r =>
    l.standard && r.standard &&
      (if o.rightAssoc then decide (o.prec < l.level) && decide (o.prec ≤ r.level)
       else decide (o.prec ≤ l.level) && decide (o.prec < r.level))

/-- The value of an operator on two integers; division truncates and fails
on a zero divisor, a power fails on a negative exponent. -/
def applyOp : Op → Int → Int → Option Int
  | Op.add, a, b => some (a + b)
  | Op.sub, a, b => some (a - b)
  | Op.mul, a, b => some (a * b)
  | Op.div, a, b => if b = 0 then none else some (Int.tdiv a b)
  | Op.pow, a, b => if b < 0 then none else some (a ^ b.toNat)

/-- The value of an expression according to its grouping. -/
def Expr.eval : Expr → Option Int
  | Expr.num n => some n
  | Expr.paren e => e.eval
  | Expr.bin l o r => l.eval.bind fun a => r.eval.bind fun b => applyOp o a b

/-- The postfix form of an expression, as output events. -/
def Expr.rpn : Expr → List Out
  | Expr.num n => [Out.num n]
  | Expr.paren e => e.rpn
  | Expr.bin l o r => l.rpn ++ r.rpn ++ [Out.name o.sym]

/-- The standard postfix evaluator on a value stack: a number is pushed, an
operator replaces the two topmost values by its result, and at the end the
stack must hold exactly the value. -/
def evalRPN : List Out → List Int → Option Int
  | [], [v] => some v
  | [], _ => none
  | Out.num n :: r, st => evalRPN r ((n : Int) :: st)
  | Out.name s :: r, b :: a :: st =>
    match opOf s with
    | none => none
    | some o => (applyOp o a b).bind fun v => evalRPN r (v :: st)
  | _ :: _, _ => none

/-- The operators of an expression that stand outside all its
parentheses. -/
def Expr.topOps : Expr → List Op
  | Expr.bin l o r => l.topOps ++ o :: r.topOps
  | _ => []

/-- The largest number of symbols pending on the stack while the expression
is translated: a parenthesis is pending throughout its content, an operator
throughout its right operand. -/
def Expr.depth : Expr → Nat
  | Expr.num _ => 0
  | Expr.paren e => e.depth + 1
  | Expr.bin l _ r => max l.depth (r.depth + 1)

/-- The operators of an expression that are still on the stack when its last
token has been read, topmost first. -/
def Expr.pending : Expr → List Op
  | Expr.bin _ o r => r.pending ++ [o]
  | _ => []

/-- The expression `e` inside `k` pairs of parentheses. -/
def nest : Nat → Expr → Expr
  | 0, e => e
  | k + 1, e => Expr.paren (nest k e)

/-- The number of `(` still open after the tokens when `d` are open before
them; `none` when some `)` has no unmatched `(` before it. -/
def parenDepth : Nat → List Lexeme → Option Nat
  | d, [] => some d
  | d, Lexeme.num _ :: ts => parenDepth d ts
  | d, Lexeme.sym s :: ts =>
    if s = LPR then parenDepth (d + 1) ts
    else if s = RPR then (if d = 0 then none else parenDepth (d - 1) ts)
    else parenDepth d ts

/-- Says that the parentheses of the tokens are balanced: every `)` has an
unmatched `(` before it and every `(` is closed. -/
def balanced (ts : List Lexeme) : Bool := decide (parenDepth 0 ts = some 0)

/-- Says that the pending symbols never exceed the stack capacity while the
tokens are translated from the stack `stk`: whenever a `(` or an operator is
pushed, fewer than `STK_CAP` symbols are pending. -/
def withinCapacity : List Lexeme → Stack → Bool
  | [], _ => true
  | Lexeme.num _ :: ts, stk => withinCapacity ts stk
  | Lexeme.sym s :: ts, stk =>
    if s = RPR then
      match on_sym s stk [] with
      | Sum.inl _ => true
      | Sum.inr (stk', _) => withinCapacity ts stk'
    else
      decide ((if s = LPR then stk else (pop_ops s stk []).1).length < STK_CAP) &&
        withinCapacity ts (s :: (if s = LPR then stk else (pop_ops s stk []).1))

/-- The numbers among the tokens, in the order in which they are written. -/
def lits : List Lexeme → List Nat
  | [] => []
  | Lexeme.num n :: r => n :: lits r
  | Lexeme.sym _ :: r => lits r

/-! ## The operator step and the states of the loop -/

/-- The test of the operator step in the words of the specification, for the
operator token `o` and the stack symbol `s`: `s` is an operator whose
precedence is above that of `o`, or equal to it while `s` is
left-associative. -/
def yields (o : Op) (s : Sym) : Bool :=
  match opOf s with
  | none => false
  | some t => decide (o.prec < t.prec) || (decide (t.prec = o.prec) && !t.rightAssoc)

/-- Says that the symbol is one of the five operators. -/
def isOperator (s : Sym) : Bool := (opOf s).isSome

/-- The states in which a call of `shunting_yard` on the stream `inp0` stands
at the head of its main loop: the unread stream, the stack and the output so
far.  The call starts with an empty stack, and an iteration that does not
leave the loop reads a number or a symbol and goes on as `loop` does. -/
inductive Reach (inp0 : List Char) : List Char → Stack → List Out → Prop where
  | start : Reach inp0 inp0 [] []
  | num {c : Char} {rest inp' : List Char} {n : Nat} {stk : Stack} {out : List Out} :
      Reach inp0 (c :: rest) stk out → c ≠ '\n' →
      gettok (c :: rest) = (Token.NUM_T n, inp') → Reach inp0 inp' stk (out ++ [Out.num n])
  | sym {c : Char} {rest inp' : List Char} {s : Sym} {stk stk' : Stack}
      {out out' : List Out} :
      Reach inp0 (c :: rest) stk out → c ≠ '\n' →
      gettok (c :: rest) = (Token.SYM_T s, inp') → on_sym s stk out = Sum.inr (stk', out') →
      Reach inp0 inp' stk' out'

/-- The order of the stack, top first, as the claim states it: of two
operators that lie next to each other the newer one has at most the
precedence of the older one, and the same precedence only if it is
right-associative. -/
def orderClaimed : Stack → Bool
  | t :: b :: S =>
    (if isOperator t && isOperator b then
      decide (SYM_PREC t ≤ SYM_PREC b) &&
        (decide (SYM_PREC t ≠ SYM_PREC b) || decide (SYM_ASSOC t = RASSOC))
    else true) && orderClaimed (b :: S)
  | _ => true

/-- The order of the stack, top first, that the operator step keeps: of two
operators that lie next to each other the newer one has at least the
precedence of the older one, and the same precedence only if it is
right-associative. -/
def orderKept : Stack → Bool
  | t :: b :: S =>
    (if isOperator t && isOperator b then
      decide (SYM_PREC b ≤ SYM_PREC t) &&
        (decide (SYM_PREC b ≠ SYM_PREC t) || decide (SYM_ASSOC t = RASSOC))
    else true) && orderKept (b :: S)
  | _ => true

end ShuntingYard

/-!
# The algorithm zoo: sieve of Eratosthenes

A shallow embedding of `src/eratosthenes/eratosthenes.cpp`.

* The `std::vector<bool>` is a `List Bool`, `sieve.size()` its length.
* The function returns the vector it leaves behind, or the `Fault` it runs
  into: an element access outside the vector and the overflow of an `int` are
  undefined behaviour in C++ and stop the model.
* The loop variables are 32-bit `int`s, `sieve.size()` is a 64-bit `size_t`.
* Each loop takes a fuel; the function gives it one more than the length of
  the vector, which the theorems show to be enough.
-/

namespace Eratosthenes

/-- The largest value of a 32-bit `int`. -/
def INT_MAX : Nat := 2 ^ 31 - 1

/-- The modulus of `size_t` arithmetic. -/
def SIZE_MOD : Nat := 2 ^ 64

/-- The ways in which the function can fail to return: an element access
outside the vector, the overflow of an `int`, both undefined behaviour, and
the fuel of the model running out. -/
inductive Fault where
  | outOfBounds (index size : Nat)
  | intOverflow
  | outOfFuel
  deriving DecidableEq, Repr

/-- The expression `sieve[i]` read. -/
def read (sieve : List Bool) (i : Nat) : Except Fault Bool :=
  if h : i < sieve.length then Except.ok sieve[i]
  else Except.error (Fault.outOfBounds i sieve.length)

/-- The assignment `sieve[i] = b`. -/
def write (sieve : List Bool) (i : Nat) (b : Bool) : Except Fault (List Bool) :=
  if i < sieve.length then Except.ok (sieve.set i b)
  else Except.error (Fault.outOfBounds i sieve.length)

/-- An `int` result: the value if it fits, a fault otherwise. -/
def toInt (x : Nat) : Except Fault Nat :=
  if x ≤ INT_MAX then Except.ok x else Except.error Fault.intOverflow

/-- The loop `for (int n = 4; n < sieve.size(); n += 2) sieve[n] = false`,
from the value `n` of the loop variable. -/
def evens : Nat → Nat → List Bool → Except Fault (List Bool)
  | 0, _, _ => Except.error Fault.outOfFuel
  | fuel + 1, n, sieve =>
    if n < sieve.length then do
      let sieve' ← write sieve n false
      let n' ← toInt (n + 2)
      evens fuel n' sieve'
    else Except.ok sieve

/-- The loop `for (int m = n * n; m < sieve.size(); m += n) sieve[m] = false`,
from the value `m` of the loop variable. -/
def strike : Nat → Nat → Nat → List Bool → Except Fault (List Bool)
  | 0, _, _, _ => Except.error Fault.outOfFuel
  | fuel + 1, m, n, sieve =>
    if m < sieve.length then do
      let sieve' ← write sieve m false
      let m' ← toInt (m + n)
      strike fuel m' n sieve'
    else Except.ok sieve

/-- The loop `for (int n = 3; n <= std::sqrt(sieve.size() - 1); n += 2)`, from
the value `n` of the loop variable.  The difference `sieve.size() - 1` is
taken modulo `SIZE_MOD`, and the comparison of `n` with the square root is
taken as `n * n <= sieve.size() - 1`. -/
def odds : Nat → Nat → List Bool → Except Fault (List Bool)
  | 0, _, _ => Except.error Fault.outOfFuel
  | fuel + 1, n, sieve =>
    if n * n ≤ (sieve.length + SIZE_MOD - 1) % SIZE_MOD then do
      let b ← read sieve n
      let sieve' ←
        (if !b then pure sieve
        else do
          let m ← toInt (n * n)
          strike (sieve.length + 1) m n sieve)
      let n' ← toInt (n + 2)
      odds fuel n' sieve'
    else Except.ok sieve

/-- The function `eratosthenes`. -/
def eratosthenes (sieve : List Bool) : Except Fault (List Bool) := do
  let s0 ← (if sieve.length > 0 then write sieve 0 false else pure sieve)
  let s1 ← (if s0.length > 1 then write s0 1 false else pure s0)
  let s2 ← evens (s1.length + 1) 4 s1
  odds (s2.length + 1) 3 s2

/-- The function `main`: a vector of `cnt = 100000000` entries, all `true`,
passed to `eratosthenes`. -/
def main : Except Fault (List Bool) :=
  eratosthenes (List.replicate 100000000 true)

/-- Says that `v'` is `v` with the entries at the indices in `P` set to
`false`. -/
def Marks (v v' : List Bool) (P : Nat → Prop) : Prop :=
  v'.length = v.length ∧
    ∀ i, i < v.length → (P i → v'[i]? = some false) ∧ (¬ P i → v'[i]? = v[i]?)

/-- Says that `i` is below 2 or has a divisor `d` with `2 ≤ d < n` and
`d * d ≤ i`: the indices that are struck out when the loop over the odd
numbers reaches `n`. -/
def Struck (n i : Nat) : Prop := i < 2 ∨ ∃ d, 2 ≤ d ∧ d < n ∧ d * d ≤ i ∧ d ∣ i

/-- A bound on the length under which no `int` of the function overflows. -/
def SAFE_LEN : Nat := 1000000000

end Eratosthenes

/-!
# Theorems about the shunting-yard translator
-/

namespace ShuntingYard

open Sym Assoc

/-! ## The loop does not depend on its fuel -/

theorem span_snd_length (p : Char → Bool) (l : List Char) :
    (l.span p).2.length ≤ l.length := by
  rw [List.span_eq_take_drop]
  simp only [List.dropWhile_eq_nil_iff]
  exact (List.dropWhile_sublist p).length_le

theorem gettok_length (inp : List Char) : (gettok inp).2.length ≤ inp.length - 1 := by
  induction inp with
  | nil => simp [gettok]
  | cons ch rest ih =>
    unfold gettok
    by_cases h1 : isspace ch = true
    · simp only [h1, if_true]; simp only [List.length_cons, Nat.add_sub_cancel]; omega
    · simp only [h1]
      by_cases h2 : (isop ch || ispar ch) = true
      · simp [h2]
      · simp only [h2]
        by_cases h3 : isdigit ch = true
        · simp only [h3, Bool.not_true, Bool.false_eq_true, if_false]
          have hs : (List.span isdigit (ch :: rest)) =
              (ch :: (rest.span isdigit).1, (rest.span isdigit).2) := by
            simp [List.span_eq_take_drop, List.takeWhile_cons, List.dropWhile_cons, h3]
          have hl := span_snd_length isdigit rest
          simp only [scan_long, hs]
          simpa using hl
        · simp [h3]

theorem loop_fuel (f g : Nat) : ∀ (inp : List Char) (stk : Stack) (out : List Out),
    inp.length < f → inp.length < g → loop f inp stk out = loop g inp stk out := by
  induction f generalizing g with
  | zero => intro inp stk out h; omega
  | succ f ih =>
    intro inp stk out hf hg
    cases g with
    | zero => omega
    | succ g =>
      cases inp with
      | nil => simp [loop]
      | cons c rest =>
        have hlen := gettok_length (c :: rest)
        simp only [List.length_cons, Nat.add_sub_cancel] at hlen hf hg
        unfold loop
        by_cases hc : c = '\n'
        · simp [hc]
        · simp only [hc, if_false]
          rcases hg' : gettok (c :: rest) with ⟨tok, inp'⟩
          rw [hg'] at hlen
          simp only at hlen
          cases tok with
          | EOF_T => rfl
          | SYM_T sym =>
            simp only
            cases on_sym sym stk out with
            | inl o => rfl
            | inr p => exact ih g _ _ _ (by omega) (by omega)
          | NUM_T num => exact ih g _ _ _ (by omega) (by omega)

theorem run_nil (stk : Stack) (out : List Out) :
    run [] stk out = some (finish false [] stk out) := by
  simp [run, loop]

theorem run_newline (rest : List Char) (stk : Stack) (out : List Out) :
    run ('\n' :: rest) stk out = some (finish true rest stk out) := by
  simp [run, loop]

theorem run_eof_t (c : Char) (rest inp' : List Char) (stk : Stack) (out : List Out)
    (hc : c ≠ '\n') (hg : gettok (c :: rest) = (Token.EOF_T, inp')) :
    run (c :: rest) stk out = some ⟨false, inp', out⟩ := by
  simp [run, loop, hc, hg]

theorem run_num_t (c : Char) (rest inp' : List Char) (num : Nat) (stk : Stack)
    (out : List Out) (hc : c ≠ '\n') (hg : gettok (c :: rest) = (Token.NUM_T num, inp')) :
    run (c :: rest) stk out = run inp' stk (out ++ [Out.num num]) := by
  have hlen := gettok_length (c :: rest)
  rw [hg] at hlen
  simp only [List.length_cons, Nat.add_sub_cancel] at hlen
  unfold run
  rw [List.length_cons, loop]
  simp only [hc, if_false, hg]
  apply loop_fuel <;> omega

theorem run_sym_t (c : Char) (rest inp' : List Char) (sym : Sym) (stk : Stack)
    (out : List Out) (hc : c ≠ '\n') (hg : gettok (c :: rest) = (Token.SYM_T sym, inp')) :
    run (c :: rest) stk out =
      match on_sym sym stk out with
      | Sum.inl out' => some ⟨true, inp', out'⟩
      | Sum.inr (stk', out') => run inp' stk' out' := by
  have hlen := gettok_length (c :: rest)
  rw [hg] at hlen
  simp only [List.length_cons, Nat.add_sub_cancel] at hlen
  unfold run
  rw [List.length_cons, loop]
  simp only [hc, if_false, hg]
  cases on_sym sym stk out with
  | inl o => rfl
  | inr p => apply loop_fuel <;> omega

/-! ## Every call returns -/

theorem finish_rest (b : Bool) (inp : List Char) (stk : Stack) (out : List Out) :
    (finish b inp stk out).rest = inp := by
  unfold finish
  rcases drain stk out with ⟨d, o⟩
  cases d <;> cases b <;> rfl

theorem loop_returns (f : Nat) : ∀ (inp : List Char) (stk : Stack) (out : List Out),
    inp.length < f →
    ∃ r : Result, loop f inp stk out = some r ∧ r.rest.length ≤ inp.length - 1 := by
  induction f with
  | zero => intro inp stk out h; omega
  | succ f ih =>
    intro inp stk out hf
    cases inp with
    | nil => exact ⟨finish false [] stk out, by simp [loop], by simp [finish_rest]⟩
    | cons c rest =>
      have hlen := gettok_length (c :: rest)
      simp only [List.length_cons, Nat.add_sub_cancel] at hlen hf ⊢
      rw [loop]
      by_cases hc : c = '\n'
      · exact ⟨finish true rest stk out, by simp only [hc, if_true], by simp [finish_rest]⟩
      · simp only [hc, if_false]
        rcases hg' : gettok (c :: rest) with ⟨tok, inp'⟩
        rw [hg'] at hlen
        simp only at hlen
        cases tok with
        | EOF_T => exact ⟨_, rfl, hlen⟩
        | SYM_T sym =>
          simp only
          cases on_sym sym stk out with
          | inl o => exact ⟨_, rfl, hlen⟩
          | inr p =>
            obtain ⟨r, hr, hl⟩ := ih inp' p.1 p.2 (by omega)
            exact ⟨r, hr, by omega⟩
        | NUM_T num =>
          obtain ⟨r, hr, hl⟩ := ih inp' stk (out ++ [Out.num num]) (by omega)
          exact ⟨r, hr, by omega⟩

/-- The function `shunting_yard` returns on every input, and on a non-empty
input it consumes at least one character. -/
theorem shunting_yard_returns (inp : List Char) :
    ∃ r : Result, shunting_yard inp = some r ∧ r.rest.length ≤ inp.length - 1 :=
  loop_returns _ inp [] [] (Nat.lt_succ_self _)

theorem main_loop_returns (f : Nat) : ∀ (inp : List Char) (out : List Out),
    inp.length < f → ∃ o, main_loop f inp out = some o := by
  induction f with
  | zero => intro inp out h; omega
  | succ f ih =>
    intro inp out hf
    cases inp with
    | nil => exact ⟨out ++ [Out.prompt, Out.nl], by simp [main_loop]⟩
    | cons c rest =>
      obtain ⟨r, hr, hl⟩ := shunting_yard_returns (c :: rest)
      simp only [List.length_cons, Nat.add_sub_cancel] at hl hf
      simp only [main_loop, hr]
      cases r.ret with
      | false => exact ⟨_, rfl⟩
      | true => exact ih r.rest _ (by omega)

/-- The program ends on every input. -/
theorem main_returns (inp : List Char) : ∃ o, main inp = some o :=
  main_loop_returns _ inp [] (Nat.lt_succ_self _)

/-! ## Lexing a laid out token -/

theorem digitChar_facts : ∀ d, d < 10 →
    isdigit (Nat.digitChar d) = true ∧ isspace (Nat.digitChar d) = false ∧
    isop (Nat.digitChar d) = false ∧ ispar (Nat.digitChar d) = false ∧
    digitVal (Nat.digitChar d) = d ∧ Nat.digitChar d ≠ '\n' := by
  decide

theorem toDigitsCore_dig (fuel : Nat) : ∀ (n : Nat) (acc : List Char),
    (∀ c ∈ acc, IsDig c) → ∀ c ∈ Nat.toDigitsCore 10 fuel n acc, IsDig c := by
  induction fuel with
  | zero => intro n acc h; simpa [Nat.toDigitsCore] using h
  | succ fuel ih =>
    intro n acc h
    have hd : IsDig (Nat.digitChar (n % 10)) := ⟨n % 10, Nat.mod_lt _ (by norm_num), rfl⟩
    have h' : ∀ c ∈ Nat.digitChar (n % 10) :: acc, IsDig c := by
      intro c hc
      rcases List.mem_cons.1 hc with rfl | hc
      · exact hd
      · exact h c hc
    simp only [Nat.toDigitsCore]
    split
    · exact h'
    · exact ih _ _ h'

theorem toDigitsCore_ne_nil (fuel : Nat) : ∀ (n : Nat) (acc : List Char),
    0 < fuel → Nat.toDigitsCore 10 fuel n acc ≠ [] := by
  induction fuel with
  | zero => intro n acc h; omega
  | succ fuel ih =>
    intro n acc _
    simp only [Nat.toDigitsCore]
    split
    · simp
    · cases fuel with
      | zero => simp [Nat.toDigitsCore]
      | succ f => exact ih _ _ (by omega)

theorem toDigitsCore_val (fuel : Nat) : ∀ (n : Nat) (acc : List Char), n < fuel →
    (Nat.toDigitsCore 10 fuel n acc).foldl (fun a c => 10 * a + digitVal c) 0
      = acc.foldl (fun a c => 10 * a + digitVal c) n := by
  induction fuel with
  | zero => intro n acc h; omega
  | succ fuel ih =>
    intro n acc h
    have hv : digitVal (Nat.digitChar (n % 10)) = n % 10 :=
      (digitChar_facts _ (Nat.mod_lt _ (by norm_num))).2.2.2.2.1
    simp only [Nat.toDigitsCore]
    split
    · rename_i h0
      simp only [List.foldl_cons, hv]
      congr 1
      omega
    · rename_i h0
      rw [ih _ _ (by omega)]
      simp only [List.foldl_cons, hv]
      congr 1
      omega
theorem isDig_facts {c : Char} (h : IsDig c) :
    isdigit c = true ∧ isspace c = false ∧ isop c = false ∧ ispar c = false ∧ c ≠ '\n' := by
  obtain ⟨d, hd, rfl⟩ := h
  have := digitChar_facts d hd
  exact ⟨this.1, this.2.1, this.2.2.1, this.2.2.2.1, this.2.2.2.2.2⟩

theorem toDigits_dig (n : Nat) : ∀ c ∈ Nat.toDigits 10 n, IsDig c :=
  toDigitsCore_dig _ _ _ (by simp)

theorem toDigits_cons (n : Nat) : ∃ d ds, Nat.toDigits 10 n = d :: ds ∧ IsDig d := by
  have hne : Nat.toDigits 10 n ≠ [] := toDigitsCore_ne_nil _ _ _ (Nat.succ_pos n)
  cases h : Nat.toDigits 10 n with
  | nil => exact absurd h hne
  | cons d ds => exact ⟨d, ds, rfl, toDigits_dig n d (by simp [h])⟩

theorem toDigits_val (n : Nat) :
    (Nat.toDigits 10 n).foldl (fun a c => 10 * a + digitVal c) 0 = n := by
  have := toDigitsCore_val (n + 1) n [] (Nat.lt_succ_self n)
  simpa [Nat.toDigits] using this

theorem span_digits (ds tail : List Char) (hds : ∀ c ∈ ds, isdigit c = true)
    (ht : noDigit tail) : (ds ++ tail).span isdigit = (ds, tail) := by
  induction ds with
  | nil =>
    cases tail with
    | nil => rfl
    | cons c t =>
      have hc : isdigit c = false := ht c (by simp)
      simp [List.span_eq_take_drop, List.takeWhile_cons, List.dropWhile_cons, hc]
  | cons d ds ih =>
    have hd : isdigit d = true := hds d (by simp)
    have ih' := ih (fun c hc => hds c (List.mem_cons_of_mem _ hc))
    rw [List.span_eq_take_drop] at ih' ⊢
    simp only [Prod.mk.injEq] at ih'
    simp [List.takeWhile_cons, List.dropWhile_cons, hd, ih'.1, ih'.2]

theorem gettok_digits (n : Nat) (tail : List Char) (ht : noDigit tail) :
    gettok (Nat.toDigits 10 n ++ tail) = (Token.NUM_T (min n LONG_MAX), tail) := by
  obtain ⟨d, ds, hds, hd⟩ := toDigits_cons n
  have hall : ∀ c ∈ Nat.toDigits 10 n, isdigit c = true :=
    fun c hc => (isDig_facts (toDigits_dig n c hc)).1
  have hspan := span_digits _ _ hall ht
  have hval := toDigits_val n
  obtain ⟨h1, h2, h3, h4, _⟩ := isDig_facts hd
  rw [hds] at hspan hval
  rw [hds, List.cons_append]
  unfold gettok
  rw [List.cons_append] at hspan
  simp only [h1, h2, h3, h4, Bool.false_eq_true, if_false, Bool.or_false, Bool.not_true,
    scan_long, hspan, hval]

theorem symChar_facts (s : Sym) :
    isspace (symChar s) = false ∧ (isop (symChar s) || ispar (symChar s)) = true ∧
    SYM_TBL (symChar s) = s ∧ symChar s ≠ '\n' ∧ isdigit (symChar s) = false := by
  cases s <;> decide

theorem gettok_symChar (s : Sym) (tail : List Char) :
    gettok (symChar s :: tail) = (Token.SYM_T s, tail) := by
  obtain ⟨h1, h2, h3, _, _⟩ := symChar_facts s
  unfold gettok
  simp [h1, h2, h3]

theorem gettok_blanks (k : Nat) (inp : List Char) : gettok (blanks k ++ inp) = gettok inp := by
  induction k with
  | zero => rfl
  | succ k ih =>
    have hsp : isspace ' ' = true := by decide
    rw [blanks, List.replicate_succ, List.cons_append, gettok]
    simpa [hsp] using ih

theorem gettok_chars (k : Nat) (t : Lexeme) (tail : List Char)
    (ht : ∀ n, t = Lexeme.num n → noDigit tail) :
    gettok (blanks k ++ t.chars ++ tail) =
      (match t with
        | Lexeme.num n => Token.NUM_T (min n LONG_MAX)
        | Lexeme.sym s => Token.SYM_T s, tail) := by
  rw [List.append_assoc, gettok_blanks]
  cases t with
  | num n => exact gettok_digits n tail (ht n rfl)
  | sym s => exact gettok_symChar s tail

theorem chars_head (k : Nat) (t : Lexeme) (tail : List Char) :
    ∃ c rest, blanks k ++ t.chars ++ tail = c :: rest ∧ c ≠ '\n' := by
  cases k with
  | succ k => exact ⟨' ', blanks k ++ t.chars ++ tail, by simp [blanks, List.replicate_succ], by decide⟩
  | zero =>
    cases t with
    | num n =>
      obtain ⟨d, ds, hds, hd⟩ := toDigits_cons n
      exact ⟨d, ds ++ tail, by simp [blanks, Lexeme.chars, hds], (isDig_facts hd).2.2.2.2⟩
    | sym s => exact ⟨symChar s, tail, by simp [blanks, Lexeme.chars], (symChar_facts s).2.2.2.1⟩

theorem run_lex_num (k n : Nat) (tail : List Char) (stk : Stack) (out : List Out)
    (ht : noDigit tail) :
    run (blanks k ++ (Lexeme.num n).chars ++ tail) stk out
      = run tail stk (out ++ [Out.num (min n LONG_MAX)]) := by
  obtain ⟨c, rest, hcr, hc⟩ := chars_head k (Lexeme.num n) tail
  have hg := gettok_chars k (Lexeme.num n) tail (fun _ _ => ht)
  rw [hcr] at hg ⊢
  exact run_num_t c rest tail _ stk out hc hg

theorem run_lex_sym (k : Nat) (s : Sym) (tail : List Char) (stk : Stack) (out : List Out) :
    run (blanks k ++ (Lexeme.sym s).chars ++ tail) stk out =
      match on_sym s stk out with
      | Sum.inl out' => some ⟨true, tail, out'⟩
      | Sum.inr (stk', out') => run tail stk' out' := by
  obtain ⟨c, rest, hcr, hc⟩ := chars_head k (Lexeme.sym s) tail
  have hg := gettok_chars k (Lexeme.sym s) tail (fun n h => by cases h)
  rw [hcr] at hg ⊢
  exact run_sym_t c rest tail s stk out hc hg

/-! ## The loop on a laid out line is the loop body on its tokens -/

theorem noDigit_layout (r : List (Nat × Lexeme)) (tail : List Char)
    (hr : noDigitAhead r = true) (ht : noDigit tail) : noDigit (layout r ++ tail) := by
  cases r with
  | nil => simpa [layout] using ht
  | cons x r =>
    obtain ⟨k, t⟩ := x
    obtain ⟨c, rest, hcr, _⟩ := chars_head k t (layout r ++ tail)
    cases k with
    | succ k =>
      intro c hc
      simp [layout, blanks, List.replicate_succ] at hc
      subst hc
      decide
    | zero =>
      cases t with
      | num n => simp [noDigitAhead] at hr
      | sym s =>
        intro c hc
        simp [layout, blanks, Lexeme.chars] at hc
        subst hc
        exact (symChar_facts s).2.2.2.2

theorem run_layout (lt : List (Nat × Lexeme)) : ∀ (stk : Stack) (out : List Out)
    (tail : List Char), spaced lt = true → noDigit tail →
    (∀ stk' out', steps (lt.map fun x => x.2.stored) stk out = Sum.inr (stk', out') →
      run (layout lt ++ tail) stk out = run tail stk' out') ∧
    (∀ o, steps (lt.map fun x => x.2.stored) stk out = Sum.inl o →
      ∃ rest', run (layout lt ++ tail) stk out = some ⟨true, rest', o⟩) := by
  induction lt with
  | nil =>
    intro stk out tail _ _
    constructor
    · intro stk' out' h
      simp only [List.map_nil, steps, Sum.inr.injEq, Prod.mk.injEq] at h
      obtain ⟨rfl, rfl⟩ := h
      rfl
    · intro o h
      simp [steps] at h
  | cons x lt ih =>
    intro stk out tail hsp ht
    obtain ⟨k, t⟩ := x
    cases t with
    | num n =>
      simp only [spaced, Bool.and_eq_true] at hsp
      have hnd := noDigit_layout lt tail hsp.1 ht
      have hrun : run (layout ((k, Lexeme.num n) :: lt) ++ tail) stk out
          = run (layout lt ++ tail) stk (out ++ [Out.num (min n LONG_MAX)]) := by
        have := run_lex_num k n (layout lt ++ tail) stk out hnd
        simpa [layout, List.append_assoc] using this
      rw [hrun]
      simpa [steps, Lexeme.stored] using ih stk (out ++ [Out.num (min n LONG_MAX)]) tail hsp.2 ht
    | sym s =>
      simp only [spaced] at hsp
      have hrun := run_lex_sym k s (layout lt ++ tail) stk out
      have heq : layout ((k, Lexeme.sym s) :: lt) ++ tail
          = blanks k ++ (Lexeme.sym s).chars ++ (layout lt ++ tail) := by
        simp [layout, List.append_assoc]
      rw [heq, hrun]
      simp only [List.map_cons, Lexeme.stored, steps]
      cases hos : on_sym s stk out with
      | inl o' =>
        constructor
        · intro stk' out' h; simp at h
        · intro o h
          simp only [Sum.inl.injEq] at h
          subst h
          exact ⟨_, rfl⟩
      | inr p =>
        obtain ⟨stk1, out1⟩ := p
        exact ih stk1 out1 tail hsp ht

theorem stored_inRange (ts : List Lexeme) (h : inRange ts = true) :
    ts.map Lexeme.stored = ts := by
  induction ts with
  | nil => rfl
  | cons t ts ih =>
    simp only [inRange, List.all_cons, Bool.and_eq_true] at h
    have ht : t.stored = t := by
      cases t with
      | num n =>
        have : n ≤ LONG_MAX := by simpa [Lexeme.inRange] using h.1
        simp [Lexeme.stored, Nat.min_eq_left this]
      | sym s => rfl
    rw [List.map_cons, ht, ih h.2]

theorem stored_map (lt : List (Nat × Lexeme)) :
    (lt.map fun x => x.2.stored) = (lt.map Prod.snd).map Lexeme.stored := by
  simp [List.map_map, Function.comp_def]

/-! ## The loop body on the tokens of an expression -/

theorem pop_ops_pops (t o : Op) (S : Stack) (out : List Out)
    (h : o.prec < t.prec ∨ (o.prec = t.prec ∧ t.rightAssoc = false)) :
    pop_ops o.sym (t.sym :: S) out = pop_ops o.sym S (out ++ [Out.name t.sym]) := by
  cases t <;> cases o <;> simp [Op.prec, Op.rightAssoc] at h <;>
    simp [pop_ops, Op.sym, op_cmp, SYM_PREC, SYM_ASSOC, pop]

theorem pop_ops_stays (t o : Op) (S : Stack) (out : List Out)
    (h : t.prec < o.prec ∨ (t.prec = o.prec ∧ t.rightAssoc = true)) :
    pop_ops o.sym (t.sym :: S) out = (t.sym :: S, out) := by
  cases t <;> cases o <;> simp [Op.prec, Op.rightAssoc] at h <;>
    simp [pop_ops, Op.sym, op_cmp, SYM_PREC, SYM_ASSOC, pop]

theorem pop_ops_lpr (s : Sym) (S : Stack) (out : List Out) :
    pop_ops s (LPR :: S) out = (LPR :: S, out) := by
  simp [pop_ops]

theorem pop_ops_all (o : Op) (S : Stack) : ∀ (pend : List Op) (out : List Out),
    (∀ t ∈ pend, o.prec < t.prec ∨ (o.prec = t.prec ∧ t.rightAssoc = false)) →
    pop_ops o.sym (pend.map Op.sym ++ S) out
      = pop_ops o.sym S (out ++ pend.map fun t => Out.name t.sym) := by
  intro pend
  induction pend with
  | nil => intro out _; simp
  | cons t pend ih =>
    intro out h
    rw [List.map_cons, List.cons_append, pop_ops_pops t o _ _ (h t (by simp)),
      ih _ (fun t' ht' => h t' (List.mem_cons_of_mem _ ht'))]
    simp

theorem pop_to_lpr_all (S : Stack) : ∀ (pend : List Op) (out : List Out),
    pop_to_lpr (pend.map Op.sym ++ LPR :: S) out
      = (LPR :: S, out ++ pend.map fun t => Out.name t.sym) := by
  intro pend
  induction pend with
  | nil => intro out; simp [pop_to_lpr]
  | cons t pend ih =>
    intro out
    have ht : t.sym ≠ LPR := by cases t <;> simp [Op.sym]
    rw [List.map_cons, List.cons_append, pop_to_lpr]
    simp only [ht, ne_eq, not_false_eq_true, if_true, pop]
    rw [ih]
    simp

theorem drain_all : ∀ (pend : List Op) (out : List Out),
    drain (pend.map Op.sym) out = (false, out ++ pend.map fun t => Out.name t.sym) := by
  intro pend
  induction pend with
  | nil => intro out; simp [drain]
  | cons t pend ih =>
    intro out
    have ht : t.sym ≠ LPR := by cases t <;> simp [Op.sym]
    rw [List.map_cons, drain]
    simp only [ht, if_false, pop]
    rw [ih]
    simp

theorem topOps_level (e : Expr) (h : e.standard = true) : ∀ t ∈ e.topOps, e.level ≤ t.prec := by
  induction e with
  | num n => intro t ht; simp [Expr.topOps] at ht
  | paren e _ => intro t ht; simp [Expr.topOps] at ht
  | bin l o r ihl ihr =>
    intro t ht
    simp only [Expr.standard, Bool.and_eq_true] at h
    obtain ⟨⟨hl, hr⟩, hlv⟩ := h
    have hlo : o.prec ≤ l.level ∧ o.prec ≤ r.level := by
      cases hra : o.rightAssoc <;> simp [hra] at hlv <;> omega
    simp only [Expr.topOps, List.mem_append, List.mem_cons] at ht
    simp only [Expr.level]
    rcases ht with ht | rfl | ht
    · have := ihl hl t ht; omega
    · exact le_refl _
    · have := ihr hr t ht; omega

theorem prec_eq_assoc (a b : Op) (h : a.prec = b.prec) : a.rightAssoc = b.rightAssoc := by
  cases a <;> cases b <;> simp [Op.prec] at h <;> rfl

theorem pops_left (l r : Expr) (o : Op) (h : (Expr.bin l o r).standard = true) :
    ∀ t ∈ l.topOps, o.prec < t.prec ∨ (o.prec = t.prec ∧ t.rightAssoc = false) := by
  intro t ht
  simp only [Expr.standard, Bool.and_eq_true] at h
  obtain ⟨⟨hl, _⟩, hlv⟩ := h
  have h1 := topOps_level l hl t ht
  cases hra : o.rightAssoc
  · simp only [hra, Bool.false_eq_true, if_false, Bool.and_eq_true, decide_eq_true_eq] at hlv
    rcases Nat.lt_or_ge o.prec t.prec with h | h
    · exact Or.inl h
    · have heq : o.prec = t.prec := by omega
      exact Or.inr ⟨heq, by rw [← prec_eq_assoc o t heq]; exact hra⟩
  · simp only [hra, if_true, Bool.and_eq_true, decide_eq_true_eq] at hlv
    exact Or.inl (by omega)

theorem stays_right (l r : Expr) (o : Op) (h : (Expr.bin l o r).standard = true) :
    ∀ t ∈ r.topOps, o.prec < t.prec ∨ (o.prec = t.prec ∧ o.rightAssoc = true) := by
  intro t ht
  simp only [Expr.standard, Bool.and_eq_true] at h
  obtain ⟨⟨_, hr⟩, hlv⟩ := h
  have h1 := topOps_level r hr t ht
  cases hra : o.rightAssoc
  · simp only [hra, Bool.false_eq_true, if_false, Bool.and_eq_true, decide_eq_true_eq] at hlv
    exact Or.inl (by omega)
  · simp only [hra, if_true, Bool.and_eq_true, decide_eq_true_eq] at hlv
    rcases Nat.lt_or_ge o.prec t.prec with h | h
    · exact Or.inl h
    · exact Or.inr ⟨by omega, rfl⟩

theorem steps_expr (e : Expr) : ∀ (ts : List Lexeme) (S : Stack) (O : List Out),
    e.standard = true → S.length + e.depth ≤ STK_CAP →
    (∀ o ∈ e.topOps, ∀ out, pop_ops o.sym S out = (S, out)) →
    ∃ (pend : List Op) (out : List Out),
      steps (e.toks ++ ts) S O = steps ts (pend.map Op.sym ++ S) (O ++ out) ∧
      out ++ pend.map (fun t => Out.name t.sym) = e.rpn ∧
      ∀ t ∈ pend, t ∈ e.topOps := by
  induction e with
  | num n =>
    intro ts S O _ _ _
    exact ⟨[], [Out.num n], by simp [Expr.toks, steps], by simp [Expr.rpn], by simp⟩
  | paren e ih =>
    intro ts S O hst hcap _
    simp only [Expr.standard] at hst
    simp only [Expr.depth] at hcap
    have hpush : (push LPR S).2 = LPR :: S := by
      have : S.length ≠ STK_CAP := by omega
      simp [push, this]
    obtain ⟨pend, out, hrun, hpost, _⟩ := ih (Lexeme.sym RPR :: ts) (LPR :: S) O hst
      (by simp only [List.length_cons]; omega) (fun o _ out => pop_ops_lpr _ _ _)
    refine ⟨[], e.rpn, ?_, by simp [Expr.rpn], by simp⟩
    have h1 : (Expr.paren e).toks ++ ts
        = Lexeme.sym LPR :: (e.toks ++ Lexeme.sym RPR :: ts) := by
      simp [Expr.toks]
    rw [h1, steps]
    simp only [on_sym, if_true, hpush]
    rw [hrun, steps]
    have h2 : on_sym RPR (pend.map Op.sym ++ LPR :: S) (O ++ out)
        = Sum.inr (S, O ++ e.rpn) := by
      simp only [on_sym, pop_to_lpr_all]
      simp [pop, ← hpost]
    rw [h2]
    simp
  | bin l o r ihl ihr =>
    intro ts S O hst hcap hguard
    have hst' := hst
    simp only [Expr.standard, Bool.and_eq_true] at hst'
    obtain ⟨⟨hl, hr⟩, _⟩ := hst'
    simp only [Expr.depth] at hcap
    obtain ⟨pl, outl, hrunl, hpostl, hpl⟩ := ihl (Lexeme.sym o.sym :: (r.toks ++ ts)) S O hl
      (by have := le_max_left l.depth (r.depth + 1); omega)
      (fun t ht out => hguard t (by simp [Expr.topOps, ht]) out)
    have hpops : ∀ t ∈ pl, o.prec < t.prec ∨ (o.prec = t.prec ∧ t.rightAssoc = false) :=
      fun t ht => pops_left l r o hst t (hpl t ht)
    have hstay : ∀ t ∈ r.topOps, ∀ out, pop_ops t.sym (o.sym :: S) out = (o.sym :: S, out) :=
      fun t ht out => pop_ops_stays o t S out (stays_right l r o hst t ht)
    have hpush : (push o.sym S).2 = o.sym :: S := by
      have := le_max_right l.depth (r.depth + 1)
      have : S.length ≠ STK_CAP := by omega
      simp [push, this]
    obtain ⟨pr, outr, hrunr, hpostr, hpr⟩ := ihr ts (o.sym :: S) (O ++ l.rpn) hr
      (by have := le_max_right l.depth (r.depth + 1); simp only [List.length_cons]; omega) hstay
    refine ⟨pr ++ [o], l.rpn ++ outr, ?_, ?_, ?_⟩
    · have h1 : (Expr.bin l o r).toks ++ ts = l.toks ++ Lexeme.sym o.sym :: (r.toks ++ ts) := by
        simp [Expr.toks]
      have hne1 : o.sym ≠ LPR := by cases o <;> simp [Op.sym]
      have hne2 : o.sym ≠ RPR := by cases o <;> simp [Op.sym]
      have h2 : on_sym o.sym (pl.map Op.sym ++ S) (O ++ outl)
          = Sum.inr (o.sym :: S, O ++ l.rpn) := by
        simp only [on_sym, hne1, hne2, if_false]
        rw [pop_ops_all o S pl _ hpops, hguard o (by simp [Expr.topOps])]
        simp [hpush, ← hpostl]
      rw [h1, hrunl, steps, h2]
      simp only
      rw [hrunr]
      simp
    · simp [Expr.rpn, ← hpostr]
    · intro t ht
      simp only [List.mem_append, List.mem_singleton] at ht
      rcases ht with ht | rfl
      · simp [Expr.topOps, hpr t ht]
      · simp [Expr.topOps]

/-! ## Expressions on a line -/

theorem noDigitAhead_append_sym (a b : List (Nat × Lexeme)) (k : Nat) (s : Sym) :
    noDigitAhead (a ++ (k, Lexeme.sym s) :: b) = noDigitAhead a := by
  cases a with
  | nil => cases k <;> rfl
  | cons x a =>
    obtain ⟨k', t⟩ := x
    cases k' <;> cases t <;> rfl

theorem spaced_append_sym (a b : List (Nat × Lexeme)) (k : Nat) (s : Sym) :
    spaced (a ++ (k, Lexeme.sym s) :: b) = (spaced a && spaced b) := by
  induction a with
  | nil => simp [spaced]
  | cons x a ih =>
    obtain ⟨k', t⟩ := x
    cases t with
    | num n => simp [spaced, ih, noDigitAhead_append_sym, Bool.and_assoc]
    | sym s' => simp [spaced, ih]

theorem spaced_toks (e : Expr) : ∀ lt : List (Nat × Lexeme),
    lt.map Prod.snd = e.toks → spaced lt = true := by
  induction e with
  | num n =>
    intro lt h
    simp only [Expr.toks, List.map_eq_cons_iff, List.map_eq_nil_iff] at h
    obtain ⟨x, l, rfl, hx, rfl⟩ := h
    obtain ⟨k, t⟩ := x
    simp only at hx
    subst hx
    simp [spaced, noDigitAhead]
  | paren e ih =>
    intro lt h
    simp only [Expr.toks, List.map_eq_cons_iff, List.map_eq_append_iff, List.map_eq_nil_iff] at h
    obtain ⟨x, l, rfl, hx, l1, l2, rfl, hl1, y, l3, rfl, hy, rfl⟩ := h
    obtain ⟨k1, t1⟩ := x
    obtain ⟨k2, t2⟩ := y
    simp only at hx hy
    subst hx hy
    simp [spaced, spaced_append_sym, ih l1 hl1]
  | bin l o r ihl ihr =>
    intro lt h
    simp only [Expr.toks, List.map_eq_cons_iff, List.map_eq_append_iff] at h
    obtain ⟨l1, l2, rfl, hl1, y, l3, rfl, hy, hl3⟩ := h
    obtain ⟨k2, t2⟩ := y
    simp only at hy
    subst hy
    simp [spaced_append_sym, ihl l1 hl1, ihr l3 hl3]

theorem evalRPN_rpn (e : Expr) : ∀ (r : List Out) (st : List Int),
    evalRPN (e.rpn ++ r) st = e.eval.bind fun v => evalRPN r (v :: st) := by
  induction e with
  | num n => intro r st; simp [Expr.rpn, Expr.eval, evalRPN]
  | paren e ih => intro r st; simpa [Expr.rpn, Expr.eval] using ih r st
  | bin l o r ihl ihr =>
    intro q st
    simp only [Expr.rpn, Expr.eval, List.append_assoc, ihl, ihr]
    cases l.eval with
    | none => rfl
    | some a =>
      cases r.eval with
      | none => rfl
      | some b =>
        have ho : opOf o.sym = some o := by cases o <;> rfl
        simp [evalRPN, ho]

theorem noDigit_newline (rest : List Char) : noDigit ('\n' :: rest) := by
  intro c hc
  simp at hc
  subst hc
  decide

theorem run_expr (e : Expr) (lt : List (Nat × Lexeme)) (rest : List Char)
    (hst : e.standard = true) (hrg : inRange e.toks = true) (hcap : e.depth ≤ STK_CAP)
    (hlt : lt.map Prod.snd = e.toks) :
    run (layout lt ++ '\n' :: rest) [] [] = some ⟨true, rest, e.rpn ++ [Out.nl]⟩ := by
  obtain ⟨pend, out, hsteps, hpost, _⟩ := steps_expr e [] [] [] hst (by simpa using hcap)
    (fun o _ out => by simp [pop_ops])
  simp only [List.append_nil, steps, List.nil_append] at hsteps
  rw [← stored_inRange _ hrg, ← hlt, ← stored_map] at hsteps
  have h := (run_layout lt [] [] ('\n' :: rest) (spaced_toks e lt hlt) (noDigit_newline rest)).1
    _ _ hsteps
  rw [h, run_newline]
  simp [finish, drain_all, hpost]

theorem toks_nest (k : Nat) (e : Expr) :
    (nest k e).toks
      = List.replicate k (Lexeme.sym LPR) ++ e.toks ++ List.replicate k (Lexeme.sym RPR) := by
  induction k with
  | zero => simp [nest]
  | succ k ih =>
    simp only [nest, Expr.toks, ih, List.replicate_succ, List.cons_append, List.append_assoc]
    congr 3
    rw [← List.replicate_succ, List.replicate_succ']

theorem standard_nest (k : Nat) (e : Expr) : (nest k e).standard = e.standard := by
  induction k with
  | zero => rfl
  | succ k ih => simpa [nest, Expr.standard] using ih

theorem eval_nest (k : Nat) (e : Expr) : (nest k e).eval = e.eval := by
  induction k with
  | zero => rfl
  | succ k ih => simpa [nest, Expr.eval] using ih

/-! ## C1 -/

set_option maxRecDepth 100000 in
/-- C1, counterexample: `1 + 2` inside 1000 pairs of parentheses is a
well-formed expression of value 3, but the line is translated to `1 2`, on
which the postfix evaluator fails: the `+` met a full stack and was lost. -/
theorem C1_counterexample_deep_nesting :
    (nest 1000 (Expr.bin (Expr.num 1) Op.add (Expr.num 2))).standard = true ∧
    shunting_yard (line (nest 1000 (Expr.bin (Expr.num 1) Op.add (Expr.num 2))).toks)
      = some ⟨true, [], [Out.num 1, Out.num 2, Out.nl]⟩ ∧
    evalRPN [Out.num 1, Out.num 2] [] = none ∧
    (nest 1000 (Expr.bin (Expr.num 1) Op.add (Expr.num 2))).eval = some 3 := by
  rw [standard_nest, eval_nest, toks_nest]
  decide!

/-- C1, amended: take an expression grouped by standard precedence and
associativity, with literals that fit in a `long`, whose pending symbols never
exceed the stack capacity, written on one line with any number of blanks
before each token and the newline right after the last token.  Then
`shunting_yard` prints the postfix form of the expression and the newline,
consumes exactly that line and returns `true`, and the standard postfix
evaluator computes from the printed sequence the value of the expression. -/
theorem C1_translation_keeps_the_value (e : Expr) (lt : List (Nat × Lexeme))
    (rest : List Char) (hst : e.standard = true) (hrg : inRange e.toks = true)
    (hcap : e.depth ≤ STK_CAP) (hlt : lt.map Prod.snd = e.toks) :
    shunting_yard (layout lt ++ '\n' :: rest) = some ⟨true, rest, e.rpn ++ [Out.nl]⟩ ∧
    evalRPN e.rpn [] = e.eval := by
  refine ⟨run_expr e lt rest hst hrg hcap hlt, ?_⟩
  have h := evalRPN_rpn e [] []
  rw [List.append_nil] at h
  rw [h]
  cases e.eval <;> rfl

/-- C1, witness: scenario 1, the line `3 + 4 * 5`, whose value is 23. -/
theorem C1_translation_keeps_the_value_witness :
    (Expr.bin (Expr.num 3) Op.add (Expr.bin (Expr.num 4) Op.mul (Expr.num 5))).standard = true ∧
    shunting_yard "3 + 4 * 5\n".toList
      = some ⟨true, [], [Out.num 3, Out.num 4, Out.num 5, Out.name MUL, Out.name ADD, Out.nl]⟩ ∧
    evalRPN [Out.num 3, Out.num 4, Out.num 5, Out.name MUL, Out.name ADD] [] = some 23 :=
  have h := C1_translation_keeps_the_value
    (Expr.bin (Expr.num 3) Op.add (Expr.bin (Expr.num 4) Op.mul (Expr.num 5)))
    [(0, Lexeme.num 3), (1, Lexeme.sym ADD), (1, Lexeme.num 4), (1, Lexeme.sym MUL),
      (1, Lexeme.num 5)] [] (by decide) (by decide) (by decide) (by decide)
  ⟨by decide, h.1, h.2⟩

/-! ## C2 -/

theorem single_map (ts : List Lexeme) : (single ts).map Prod.snd = ts := by
  cases ts with
  | nil => rfl
  | cons t r => simp [single, Function.comp_def]

theorem line_append (ts : List Lexeme) (rest : List Char) :
    line ts ++ rest = layout (single ts) ++ '\n' :: rest := by
  simp [line]

theorem run_expr_line (e : Expr) (rest : List Char) (hst : e.standard = true)
    (hrg : inRange e.toks = true) (hcap : e.depth ≤ STK_CAP) :
    shunting_yard (line e.toks ++ rest) = some ⟨true, rest, e.rpn ++ [Out.nl]⟩ := by
  rw [line_append]
  exact run_expr e (single e.toks) rest hst hrg hcap (single_map _)

/-- C2: for all numbers `a`, `b`, `c` of type `long` the line `a ^ b ^ c` is
emitted as `a b c POW POW`, and for operators `p`, `q` both from `+ -` or both
from `* /` the line `a p b q c` is emitted as `a b P c Q`. -/
theorem C2_equal_precedence_follows_associativity (a b c : Nat) (p q : Op) (rest : List Char)
    (ha : a ≤ LONG_MAX) (hb : b ≤ LONG_MAX) (hc : c ≤ LONG_MAX)
    (hpq : (p ∈ [Op.add, Op.sub] ∧ q ∈ [Op.add, Op.sub]) ∨
      (p ∈ [Op.mul, Op.div] ∧ q ∈ [Op.mul, Op.div])) :
    shunting_yard (line [Lexeme.num a, Lexeme.sym POW, Lexeme.num b, Lexeme.sym POW,
        Lexeme.num c] ++ rest)
      = some ⟨true, rest, [Out.num a, Out.num b, Out.num c, Out.name POW, Out.name POW,
          Out.nl]⟩ ∧
    shunting_yard (line [Lexeme.num a, Lexeme.sym p.sym, Lexeme.num b, Lexeme.sym q.sym,
        Lexeme.num c] ++ rest)
      = some ⟨true, rest, [Out.num a, Out.num b, Out.name p.sym, Out.num c, Out.name q.sym,
          Out.nl]⟩ := by
  constructor
  · exact run_expr_line (Expr.bin (Expr.num a) Op.pow (Expr.bin (Expr.num b) Op.pow (Expr.num c)))
      rest rfl (by simp [inRange, Expr.toks, Lexeme.inRange, ha, hb, hc])
      (by simp [Expr.depth, STK_CAP])
  · have hst : (Expr.bin (Expr.bin (Expr.num a) p (Expr.num b)) q (Expr.num c)).standard
        = true := by
      simp only [List.mem_cons, List.mem_singleton, List.not_mem_nil, or_false] at hpq
      rcases hpq with ⟨hp | hp, hq | hq⟩ | ⟨hp | hp, hq | hq⟩ <;> subst hp <;> subst hq <;> rfl
    exact run_expr_line (Expr.bin (Expr.bin (Expr.num a) p (Expr.num b)) q (Expr.num c))
      rest hst (by simp [inRange, Expr.toks, Lexeme.inRange, ha, hb, hc])
      (by simp [Expr.depth, STK_CAP])

/-- C2, witness: scenario 3, the line `2 ^ 3 ^ 2`, and the line `2 - 3 + 2`. -/
theorem C2_equal_precedence_follows_associativity_witness :
    shunting_yard "2 ^ 3 ^ 2\n".toList
      = some ⟨true, [], [Out.num 2, Out.num 3, Out.num 2, Out.name POW, Out.name POW,
          Out.nl]⟩ ∧
    shunting_yard "2 - 3 + 2\n".toList
      = some ⟨true, [], [Out.num 2, Out.num 3, Out.name SUB, Out.num 2, Out.name ADD,
          Out.nl]⟩ :=
  C2_equal_precedence_follows_associativity 2 3 2 Op.sub Op.add [] (by decide) (by decide)
    (by decide) (by decide)

/-! ## C3 -/

theorem pop_ops_fst (o : Sym) : ∀ (S : Stack) (out out' : List Out),
    (pop_ops o S out).1 = (pop_ops o S out').1 := by
  intro S
  induction S with
  | nil => intro out out'; rfl
  | cons s S ih =>
    intro out out'
    rw [pop_ops, pop_ops]
    by_cases h1 : s ≠ LPR ∧ s ≠ RPR
    · rw [if_pos h1, if_pos h1]
      by_cases h2 : op_cmp o s < 0
      · rw [if_pos h2, if_pos h2]; exact ih _ _
      · rw [if_neg h2, if_neg h2]
        by_cases h3 : op_cmp o s = 0 ∧ SYM_ASSOC s = LASSOC
        · rw [if_pos h3, if_pos h3]; exact ih _ _
        · rw [if_neg h3, if_neg h3]
    · rw [if_neg h1, if_neg h1]

theorem pop_ops_count (o : Sym) : ∀ (S : Stack) (out : List Out),
    (pop_ops o S out).1.count LPR = S.count LPR := by
  intro S
  induction S with
  | nil => intro out; rfl
  | cons s S ih =>
    intro out
    rw [pop_ops]
    by_cases h1 : s ≠ LPR ∧ s ≠ RPR
    · have hs : List.count LPR (s :: S) = List.count LPR S := by
        rw [List.count_cons]; simp [h1.1]
      rw [if_pos h1]
      by_cases h2 : op_cmp o s < 0
      · rw [if_pos h2, hs]; exact ih _
      · rw [if_neg h2]
        by_cases h3 : op_cmp o s = 0 ∧ SYM_ASSOC s = LASSOC
        · rw [if_pos h3, hs]; exact ih _
        · rw [if_neg h3]
    · rw [if_neg h1]

theorem pop_ops_clean (o : Sym) : ∀ (S : Stack) (out : List Out),
    Out.malformed ∉ out → Out.malformed ∉ (pop_ops o S out).2 := by
  intro S
  induction S with
  | nil => intro out h; exact h
  | cons s S ih =>
    intro out h
    have h' : Out.malformed ∉ out ++ [Out.name s] := by simp [h]
    rw [pop_ops]
    by_cases h1 : s ≠ LPR ∧ s ≠ RPR
    · rw [if_pos h1]
      by_cases h2 : op_cmp o s < 0
      · rw [if_pos h2]; exact ih _ h'
      · rw [if_neg h2]
        by_cases h3 : op_cmp o s = 0 ∧ SYM_ASSOC s = LASSOC
        · rw [if_pos h3]; exact ih _ h'
        · rw [if_neg h3]; exact h
    · rw [if_neg h1]; exact h

theorem pop_to_lpr_cases : ∀ (S : Stack) (out : List Out),
    (LPR ∉ S ∧ pop_to_lpr S out = ([], out ++ S.map Out.name)) ∨
    (∃ pre S2, S = pre ++ LPR :: S2 ∧ LPR ∉ pre ∧
      pop_to_lpr S out = (LPR :: S2, out ++ pre.map Out.name)) := by
  intro S
  induction S with
  | nil => intro out; left; simp [pop_to_lpr]
  | cons s S ih =>
    intro out
    by_cases hs : s = LPR
    · subst hs
      right
      exact ⟨[], S, rfl, by simp, by simp [pop_to_lpr]⟩
    · rcases ih (out ++ [Out.name s]) with ⟨hno, hp⟩ | ⟨pre, S2, rfl, hpre, hp⟩
      · left
        refine ⟨by simp [hno, Ne.symm hs], ?_⟩
        simp [pop_to_lpr, hs, pop, hp]
      · right
        refine ⟨s :: pre, S2, rfl, by simp [hpre, Ne.symm hs], ?_⟩
        simp [pop_to_lpr, hs, pop, hp]

theorem on_sym_rpr_unmatched (S : Stack) (out : List Out) (h : LPR ∉ S) :
    on_sym RPR S out = Sum.inl (out ++ S.map Out.name ++ [Out.malformed]) := by
  rcases pop_to_lpr_cases S out with ⟨_, hp⟩ | ⟨pre, S2, rfl, _, _⟩
  · simp [on_sym, hp]
  · simp at h

theorem on_sym_rpr_matched (pre S2 : Stack) (out : List Out) (h : LPR ∉ pre) :
    on_sym RPR (pre ++ LPR :: S2) out = Sum.inr (S2, out ++ pre.map Out.name) := by
  rcases pop_to_lpr_cases (pre ++ LPR :: S2) out with ⟨hno, _⟩ | ⟨pre', S2', heq, hpre', hp⟩
  · simp at hno
  · have hp2 : pop_to_lpr (pre ++ LPR :: S2) out = (LPR :: S2, out ++ pre.map Out.name) := by
      clear hp heq hpre'
      induction pre generalizing out with
      | nil => simp [pop_to_lpr]
      | cons s pre ih =>
        have hs : s ≠ LPR := fun e => h (by simp [e])
        have := ih (out ++ [Out.name s]) (fun hm => h (List.mem_cons_of_mem _ hm))
        simp [pop_to_lpr, hs, pop, this]
    simp [on_sym, hp2, pop]

theorem drain_cases : ∀ (S : Stack) (out : List Out),
    (LPR ∉ S ∧ drain S out = (false, out ++ S.map Out.name)) ∨
    (∃ pre S2, S = pre ++ LPR :: S2 ∧ LPR ∉ pre ∧
      drain S out = (true, out ++ pre.map Out.name ++ [Out.malformed])) := by
  intro S
  induction S with
  | nil => intro out; left; simp [drain]
  | cons s S ih =>
    intro out
    by_cases hs : s = LPR
    · subst hs
      right
      exact ⟨[], S, rfl, by simp, by simp [drain]⟩
    · rcases ih (out ++ [Out.name s]) with ⟨hno, hp⟩ | ⟨pre, S2, rfl, hpre, hp⟩
      · left
        refine ⟨by simp [hno, Ne.symm hs], ?_⟩
        simp [drain, hs, pop, hp]
      · right
        refine ⟨s :: pre, S2, rfl, by simp [hpre, Ne.symm hs], ?_⟩
        simp [drain, hs, pop, hp]

theorem count_lpr_split (pre S2 : Stack) (h : LPR ∉ pre) :
    (pre ++ LPR :: S2).count LPR = S2.count LPR + 1 := by
  rw [List.count_append, List.count_eq_zero_of_not_mem h]
  simp

theorem steps_balance : ∀ (ts : List Lexeme) (S : Stack) (O : List Out),
    withinCapacity ts S = true → Out.malformed ∉ O →
    (∀ o, steps ts S O = Sum.inl o →
      parenDepth (S.count LPR) ts = none ∧ Out.malformed ∈ o) ∧
    (∀ S' O', steps ts S O = Sum.inr (S', O') →
      parenDepth (S.count LPR) ts = some (S'.count LPR) ∧ Out.malformed ∉ O') := by
  intro ts
  induction ts with
  | nil =>
    intro S O _ hO
    constructor
    · intro o h; simp [steps] at h
    · intro S' O' h
      simp only [steps, Sum.inr.injEq, Prod.mk.injEq] at h
      obtain ⟨rfl, rfl⟩ := h
      exact ⟨rfl, hO⟩
  | cons t ts ih =>
    intro S O hcap hO
    cases t with
    | num n =>
      simp only [withinCapacity] at hcap
      simp only [steps, parenDepth]
      exact ih S (O ++ [Out.num n]) hcap (by simp [hO])
    | sym s =>
      by_cases hL : s = LPR
      · subst hL
        simp only [withinCapacity, if_true, Bool.and_eq_true, decide_eq_true_eq] at hcap
        have hne : ¬ (LPR = RPR) := by decide
        simp only [hne, if_false, Bool.and_eq_true, decide_eq_true_eq] at hcap
        have hpush : on_sym LPR S O = Sum.inr (LPR :: S, O) := by
          have : S.length ≠ STK_CAP := by omega
          simp [on_sym, push, this]
        simp only [steps, hpush, parenDepth, if_true]
        have := ih (LPR :: S) O hcap.2 hO
        simpa [List.count_cons] using this
      · by_cases hR : s = RPR
        · subst hR
          rcases pop_to_lpr_cases S O with ⟨hno, _⟩ | ⟨pre, S2, rfl, hpre, _⟩
          · simp only [steps, on_sym_rpr_unmatched S O hno, parenDepth, hL, if_false, if_true,
              List.count_eq_zero_of_not_mem hno]
            constructor
            · intro o h
              simp only [Sum.inl.injEq] at h
              subst h
              simp
            · intro S' O' h; simp at h
          · simp only [withinCapacity, if_true, on_sym_rpr_matched pre S2 [] hpre] at hcap
            have hcnt := count_lpr_split pre S2 hpre
            have hne : (pre ++ LPR :: S2).count LPR ≠ 0 := by omega
            simp only [steps, on_sym_rpr_matched pre S2 O hpre, parenDepth, hL, if_false,
              if_true, hne, hcnt, Nat.add_sub_cancel]
            exact ih S2 (O ++ pre.map Out.name) hcap (by simp [hO])
        · simp only [withinCapacity, hR, hL, if_false, Bool.and_eq_true,
            decide_eq_true_eq] at hcap
          have hfst := pop_ops_fst s S O []
          have hpush : on_sym s S O
              = Sum.inr (s :: (pop_ops s S []).1, (pop_ops s S O).2) := by
            have : (pop_ops s S []).1.length ≠ STK_CAP := by omega
            simp [on_sym, hL, hR, push, hfst, this]
          simp only [steps, hpush, parenDepth, hL, hR, if_false]
          have := ih (s :: (pop_ops s S []).1) (pop_ops s S O).2 hcap.2 (pop_ops_clean s S O hO)
          simpa [List.count_cons, hL, pop_ops_count] using this

theorem parenDepth_stored : ∀ (ts : List Lexeme) (d : Nat),
    parenDepth d (ts.map Lexeme.stored) = parenDepth d ts := by
  intro ts
  induction ts with
  | nil => intro d; rfl
  | cons t ts ih =>
    intro d
    cases t with
    | num n => simpa [Lexeme.stored, parenDepth] using ih d
    | sym s => simp only [List.map_cons, Lexeme.stored, parenDepth, ih]

theorem withinCapacity_stored : ∀ (ts : List Lexeme) (S : Stack),
    withinCapacity (ts.map Lexeme.stored) S = withinCapacity ts S := by
  intro ts
  induction ts with
  | nil => intro S; rfl
  | cons t ts ih =>
    intro S
    cases t with
    | num n => simpa [Lexeme.stored, withinCapacity] using ih S
    | sym s =>
      simp only [List.map_cons, Lexeme.stored, withinCapacity, ih]

/-- Take a line of numbers, operators and parentheses, with any number
of blanks before each token (at least one between two numbers) and the newline
right after the last token, whose pending symbols never exceed the stack
capacity.  Then `shunting_yard` returns `true`, and it prints `MALFORMED EQ`
if and only if the parentheses are not balanced; when they are balanced it
consumes the line and prints a sequence without the diagnostic, closed by the
newline. -/
theorem malformed_iff_unbalanced (lt : List (Nat × Lexeme)) (rest : List Char)
    (hsp : spaced lt = true) (hcap : withinCapacity (lt.map Prod.snd) [] = true) :
    ∃ r : Result, shunting_yard (layout lt ++ '\n' :: rest) = some r ∧ r.ret = true ∧
      (Out.malformed ∈ r.out ↔ balanced (lt.map Prod.snd) = false) ∧
      (balanced (lt.map Prod.snd) = true →
        ∃ P, r = ⟨true, rest, P ++ [Out.nl]⟩ ∧ Out.malformed ∉ P) := by
  have hrun := run_layout lt [] [] ('\n' :: rest) hsp (noDigit_newline rest)
  rw [stored_map] at hrun
  have hbal := steps_balance ((lt.map Prod.snd).map Lexeme.stored) [] []
    (by rw [withinCapacity_stored]; exact hcap) (by simp)
  simp only [List.count_nil, parenDepth_stored] at hbal
  cases hs : steps ((lt.map Prod.snd).map Lexeme.stored) [] [] with
  | inl o =>
    obtain ⟨rest', hr⟩ := hrun.2 o hs
    obtain ⟨hd, hm⟩ := hbal.1 o hs
    refine ⟨⟨true, rest', o⟩, hr, rfl, ?_, ?_⟩
    · simp [balanced, hd, hm]
    · simp [balanced, hd]
  | inr p =>
    obtain ⟨S', O'⟩ := p
    have hr := hrun.1 S' O' hs
    obtain ⟨hd, hm⟩ := hbal.2 S' O' hs
    rw [run_newline] at hr
    rcases drain_cases S' O' with ⟨hno, hdr⟩ | ⟨pre, S2, rfl, hpre, hdr⟩
    · have hcnt := List.count_eq_zero_of_not_mem hno
      have hnm : Out.malformed ∉ O' ++ S'.map Out.name := by simp [hm]
      refine ⟨⟨true, rest, O' ++ S'.map Out.name ++ [Out.nl]⟩, ?_, rfl, ?_, ?_⟩
      · rw [show shunting_yard _ = run _ [] [] from rfl, hr]
        simp [finish, hdr]
      · simp [balanced, hd, hcnt, hm]
      · intro _
        exact ⟨_, rfl, hnm⟩
    · have hcnt := count_lpr_split pre S2 hpre
      refine ⟨⟨true, rest, O' ++ pre.map Out.name ++ [Out.malformed]⟩, ?_, rfl, ?_, ?_⟩
      · rw [show shunting_yard _ = run _ [] [] from rfl, hr]
        simp [finish, hdr]
      · simp [balanced, hd, hcnt]
      · simp [balanced, hd, hcnt]

/-- C5, the code at the failing input: the line `( 1 + 2 `, with a blank
before the newline, has an unclosed `(` and stays within the stack capacity,
but `gettok` skips the newline as white space and meets the end of the input:
`shunting_yard` prints `1 2` without `MALFORMED EQ` and returns `false`, and
the program ends.  The same line without the blank is reported.  In the other
direction the balanced line `1 + 2 `, followed by the line `)`, is read
together with it and `MALFORMED EQ` is printed in the call that reads it.
On every line of tokens within the stack capacity whose newline comes right
after the last token, with any number of blanks before each token,
`MALFORMED EQ` is printed if and only if the parentheses are not balanced. -/
theorem C5_trailing_blank_hides_the_open_paren :
    balanced [Lexeme.sym LPR, Lexeme.num 1, Lexeme.sym ADD, Lexeme.num 2] = false ∧
    withinCapacity [Lexeme.sym LPR, Lexeme.num 1, Lexeme.sym ADD, Lexeme.num 2] [] = true ∧
    shunting_yard "( 1 + 2 \n".toList = some ⟨false, [], [Out.num 1, Out.num 2]⟩ ∧
    main "( 1 + 2 \n".toList = some [Out.prompt, Out.num 1, Out.num 2, Out.nl] ∧
    shunting_yard "( 1 + 2\n".toList
      = some ⟨true, [], [Out.num 1, Out.num 2, Out.name ADD, Out.malformed]⟩ ∧
    balanced [Lexeme.num 1, Lexeme.sym ADD, Lexeme.num 2] = true ∧
    shunting_yard "1 + 2 \n)\n".toList
      = some ⟨true, "\n".toList, [Out.num 1, Out.num 2, Out.name ADD, Out.malformed]⟩ ∧
    (∀ (lt : List (Nat × Lexeme)) (rest : List Char), spaced lt = true →
      withinCapacity (lt.map Prod.snd) [] = true →
      ∃ r : Result, shunting_yard (layout lt ++ '\n' :: rest) = some r ∧ r.ret = true ∧
        (Out.malformed ∈ r.out ↔ balanced (lt.map Prod.snd) = false) ∧
        (balanced (lt.map Prod.snd) = true →
          ∃ P, r = ⟨true, rest, P ++ [Out.nl]⟩ ∧ Out.malformed ∉ P)) :=
  ⟨by decide, by decide, by decide, by decide, by decide, by decide, by decide,
    malformed_iff_unbalanced⟩

/-- C5, witness of the last part: the line `(1 + 2 ) * 3`, which is
balanced. -/
theorem C5_trailing_blank_hides_the_open_paren_witness :
    ∃ r : Result, shunting_yard "(1 + 2 ) * 3\n".toList = some r ∧ r.ret = true ∧
      (Out.malformed ∈ r.out ↔
        balanced [Lexeme.sym LPR, Lexeme.num 1, Lexeme.sym ADD, Lexeme.num 2, Lexeme.sym RPR,
          Lexeme.sym MUL, Lexeme.num 3] = false) ∧
      (balanced [Lexeme.sym LPR, Lexeme.num 1, Lexeme.sym ADD, Lexeme.num 2, Lexeme.sym RPR,
          Lexeme.sym MUL, Lexeme.num 3] = true →
        ∃ P, r = ⟨true, [], P ++ [Out.nl]⟩ ∧ Out.malformed ∉ P) :=
  C5_trailing_blank_hides_the_open_paren.2.2.2.2.2.2.2
    [(0, Lexeme.sym LPR), (0, Lexeme.num 1), (1, Lexeme.sym ADD), (1, Lexeme.num 2),
      (1, Lexeme.sym RPR), (1, Lexeme.sym MUL), (1, Lexeme.num 3)] [] (by decide) (by decide)

/-! ## C6 -/

theorem loop_sym_returns (f : Nat) (c : Char) (rest inp' : List Char) (sym : Sym)
    (stk : Stack) (out out' : List Out) (hc : c ≠ '\n')
    (hg : gettok (c :: rest) = (Token.SYM_T sym, inp'))
    (ho : on_sym sym stk out = Sum.inl out') :
    loop (f + 1) (c :: rest) stk out = some ⟨true, inp', out'⟩ := by
  rw [loop]
  simp only [hc, if_false, hg, ho]

/-- C7: when a `)` is read, after any number of blanks, while no `LPR` is on
the stack, the output printed so far is kept, every symbol pending on the
stack is printed in pop order, `MALFORMED EQ` follows and the function returns
`true`; so the line `1 + 2 )` outputs `1 2 ADD` followed by `MALFORMED EQ`. -/
theorem C7_unmatched_close_keeps_output :
    (∀ (f k : Nat) (tail : List Char) (stk : Stack) (out : List Out), LPR ∉ stk →
      loop (f + 1) (blanks k ++ ')' :: tail) stk out
        = some ⟨true, tail, out ++ stk.map Out.name ++ [Out.malformed]⟩) ∧
    shunting_yard "1 + 2 )\n".toList
      = some ⟨true, ['\n'], [Out.num 1, Out.num 2, Out.name ADD, Out.malformed]⟩ ∧
    render [Out.num 1, Out.num 2, Out.name ADD, Out.malformed] = "1 2 ADD MALFORMED EQ\n" := by
  refine ⟨?_, by decide, by decide⟩
  intro f k tail stk out hno
  obtain ⟨c, rest, hcr, hc⟩ := chars_head k (Lexeme.sym RPR) tail
  have hg := gettok_chars k (Lexeme.sym RPR) tail (fun n h => by cases h)
  have heq : blanks k ++ ')' :: tail = blanks k ++ (Lexeme.sym RPR).chars ++ tail := by
    simp [Lexeme.chars, symChar]
  rw [heq, hcr]
  rw [hcr] at hg
  exact loop_sym_returns f c rest tail RPR stk out _ hc hg (on_sym_rpr_unmatched stk out hno)

/-- C7, witness: a `)` read while `MUL` and `ADD` are pending and `3 4` has
been printed. -/
theorem C7_unmatched_close_keeps_output_witness :
    loop 1 "  ) + 5\n".toList [MUL, ADD] [Out.num 3, Out.num 4]
      = some ⟨true, " + 5\n".toList,
          [Out.num 3, Out.num 4, Out.name MUL, Out.name ADD, Out.malformed]⟩ :=
  C7_unmatched_close_keeps_output.1 0 2 " + 5\n".toList [MUL, ADD] [Out.num 3, Out.num 4]
    (by decide)

/-! ## C8 -/

/-- C8, the code at the failing input: on the line `1 ) 2 + 3` the call of
`shunting_yard` that stops at the `)` leaves ` 2 + 3` unread, and the driver
translates it in its next call as if it were a line of its own: the
program prints `> 1 MALFORMED EQ`, then `> 2 3 ADD`, then the last prompt. -/
theorem C8_rest_of_malformed_line_is_translated :
    shunting_yard "1 ) 2 + 3\n".toList
      = some ⟨true, " 2 + 3\n".toList, [Out.num 1, Out.malformed]⟩ ∧
    main "1 ) 2 + 3\n".toList
      = some [Out.prompt, Out.num 1, Out.malformed, Out.prompt, Out.num 2, Out.num 3,
          Out.name ADD, Out.nl, Out.prompt, Out.nl] ∧
    render [Out.prompt, Out.num 1, Out.malformed, Out.prompt, Out.num 2, Out.num 3,
        Out.name ADD, Out.nl, Out.prompt, Out.nl]
      = "> 1 MALFORMED EQ\n> 2 3 ADD \n> \n" := by
  decide

/-! ## C9 -/

set_option maxRecDepth 100000 in
/-- C10, the code at the failing input: on the line made of 1000 `(`, then
`1+2`, then 1000 `)`, the `+` has to be pushed while the stack holds 1000
symbols; `push` refuses it, its result is dropped, and the translation goes
on to the end of the line: the output is `1 2` and the newline, without
`ADD` and without a diagnostic, and the function returns `true`. -/
theorem C10_push_on_full_stack_is_silent :
    push ADD (List.replicate 1000 LPR) = (false, List.replicate 1000 LPR) ∧
    shunting_yard (List.replicate 1000 '(' ++ "1+2".toList ++ List.replicate 1000 ')' ++ ['\n'])
      = some ⟨true, [], [Out.num 1, Out.num 2, Out.nl]⟩ := by
  decide!

/-! ## The depth of an expression is the stack it needs -/

theorem pending_topOps (e : Expr) : ∀ t ∈ e.pending, t ∈ e.topOps := by
  induction e with
  | num n => intro t ht; simp [Expr.pending] at ht
  | paren e _ => intro t ht; simp [Expr.pending] at ht
  | bin l o r _ ihr =>
    intro t ht
    simp only [Expr.pending, List.mem_append, List.mem_singleton] at ht
    rcases ht with ht | rfl
    · simp [Expr.topOps, ihr t ht]
    · simp [Expr.topOps]

theorem withinCapacity_expr (e : Expr) : ∀ (ts : List Lexeme) (S : Stack),
    e.standard = true → S.length ≤ STK_CAP →
    (∀ o ∈ e.topOps, ∀ out, pop_ops o.sym S out = (S, out)) →
    withinCapacity (e.toks ++ ts) S
      = (decide (S.length + e.depth ≤ STK_CAP) &&
          withinCapacity ts (e.pending.map Op.sym ++ S)) := by
  induction e with
  | num n =>
    intro ts S _ hS _
    simp [Expr.toks, withinCapacity, Expr.depth, Expr.pending, hS]
  | paren e ih =>
    intro ts S hst hS _
    have h1 : (Expr.paren e).toks ++ ts
        = Lexeme.sym LPR :: (e.toks ++ Lexeme.sym RPR :: ts) := by
      simp [Expr.toks]
    have hne : ¬ (LPR = RPR) := by decide
    rw [h1, withinCapacity]
    simp only [hne, if_false, if_true, Expr.depth, Expr.pending, List.map_nil, List.nil_append]
    by_cases hlt : S.length < STK_CAP
    · have hno : LPR ∉ e.pending.map Op.sym := by
        intro hm
        obtain ⟨t, _, ht⟩ := List.mem_map.1 hm
        cases t <;> simp [Op.sym] at ht
      rw [ih (Lexeme.sym RPR :: ts) (LPR :: S) hst (by simp only [List.length_cons]; omega)
        (fun o _ out => pop_ops_lpr _ _ _)]
      rw [withinCapacity]
      simp only [if_true, on_sym_rpr_matched _ S [] hno, List.length_cons]
      have e1 : decide (S.length < STK_CAP) = true := by simp [hlt]
      rw [e1, Bool.true_and]
      congr 1
      simp only [decide_eq_decide]
      omega
    · have e1 : decide (S.length < STK_CAP) = false := by simp [hlt]
      have e2 : decide (S.length + (e.depth + 1) ≤ STK_CAP) = false := by
        simp only [decide_eq_false_iff_not]; omega
      rw [e1, e2]
      rfl
  | bin l o r ihl ihr =>
    intro ts S hst hS hguard
    have hst' := hst
    simp only [Expr.standard, Bool.and_eq_true] at hst'
    obtain ⟨⟨hl, hr⟩, _⟩ := hst'
    have h1 : (Expr.bin l o r).toks ++ ts = l.toks ++ Lexeme.sym o.sym :: (r.toks ++ ts) := by
      simp [Expr.toks]
    have hne1 : ¬ (o.sym = LPR) := by cases o <;> simp [Op.sym]
    have hne2 : ¬ (o.sym = RPR) := by cases o <;> simp [Op.sym]
    have hpop : (pop_ops o.sym (l.pending.map Op.sym ++ S) []).1 = S := by
      rw [pop_ops_all o S l.pending [] (fun t ht => pops_left l r o hst t (pending_topOps l t ht)),
        hguard o (by simp [Expr.topOps])]
    rw [h1, ihl _ S hl hS (fun t ht out => hguard t (by simp [Expr.topOps, ht]) out),
      withinCapacity]
    simp only [hne1, hne2, if_false, hpop, Expr.depth, Expr.pending, List.map_append,
      List.map_cons, List.map_nil, List.append_assoc, List.singleton_append]
    by_cases hlt : S.length < STK_CAP
    · rw [ihr ts (o.sym :: S) hr (by simp only [List.length_cons]; omega)
        (fun t ht out => pop_ops_stays o t S out (stays_right l r o hst t ht))]
      simp only [List.length_cons]
      have e1 : decide (S.length < STK_CAP) = true := by simp [hlt]
      rw [e1, Bool.true_and, ← Bool.and_assoc]
      congr 1
      rw [Bool.eq_iff_iff]
      simp only [Bool.and_eq_true, decide_eq_true_eq]
      have := le_max_left l.depth (r.depth + 1)
      have := le_max_right l.depth (r.depth + 1)
      rcases max_cases l.depth (r.depth + 1) with ⟨hm, _⟩ | ⟨hm, _⟩ <;> omega
    · have e1 : decide (S.length < STK_CAP) = false := by simp [hlt]
      have e2 : decide (S.length + max l.depth (r.depth + 1) ≤ STK_CAP) = false := by
        simp only [decide_eq_false_iff_not]
        have := le_max_right l.depth (r.depth + 1)
        omega
      rw [e1, e2]
      simp

/-- The bound `e.depth ≤ STK_CAP` says exactly that no symbol of the
expression is pushed on a full stack. -/
theorem withinCapacity_iff_depth (e : Expr) (hst : e.standard = true) :
    withinCapacity e.toks [] = decide (e.depth ≤ STK_CAP) := by
  have h := withinCapacity_expr e [] [] hst (Nat.zero_le _) (fun o _ out => by simp [pop_ops])
  simpa [withinCapacity] using h

/-! ## C11 -/

theorem noDigit_nil : noDigit [] := by
  intro c hc
  simp at hc

theorem finish_out_cases (rest : List Char) (stk : Stack) (out : List Out) :
    (finish true rest stk out).out = (finish false [] stk out).out ++ [Out.nl] ∨
    (finish true rest stk out).out = (finish false [] stk out).out := by
  unfold finish
  rcases drain stk out with ⟨d, o⟩
  cases d
  · left; rfl
  · right; rfl

theorem run_expr_eof (e : Expr) (lt : List (Nat × Lexeme)) (hst : e.standard = true)
    (hrg : inRange e.toks = true) (hcap : e.depth ≤ STK_CAP) (hlt : lt.map Prod.snd = e.toks) :
    run (layout lt) [] [] = some ⟨false, [], e.rpn⟩ := by
  obtain ⟨pend, out, hsteps, hpost, _⟩ := steps_expr e [] [] [] hst (by simpa using hcap)
    (fun o _ out => by simp [pop_ops])
  simp only [List.append_nil, steps, List.nil_append] at hsteps
  rw [← stored_inRange _ hrg, ← hlt, ← stored_map] at hsteps
  have h := (run_layout lt [] [] [] (spaced_toks e lt hlt) noDigit_nil).1 _ _ hsteps
  rw [List.append_nil] at h
  rw [h, run_nil]
  simp [finish, drain_all, hpost]

/-- C11: take an expression grouped by standard precedence and associativity
on a line with any number of blanks before each token.  When the input ends
right after its last token, `shunting_yard` prints the same sequence as when
a newline follows, which then is printed in addition (unless the sequence
ends in the diagnostic); and when the literals fit in a `long` and the pending
symbols never exceed the stack capacity, that sequence is the complete postfix
form of the expression, after which the function returns `false` at the end
of the input and `true` at the newline. -/
theorem C11_end_of_input_flushes (e : Expr) (lt : List (Nat × Lexeme)) (rest : List Char)
    (hst : e.standard = true) (hlt : lt.map Prod.snd = e.toks) :
    ∃ r r' : Result, shunting_yard (layout lt) = some r ∧
      shunting_yard (layout lt ++ '\n' :: rest) = some r' ∧
      (r'.out = r.out ++ [Out.nl] ∨ r'.out = r.out) ∧
      (inRange e.toks = true → e.depth ≤ STK_CAP →
        r = ⟨false, [], e.rpn⟩ ∧ r' = ⟨true, rest, e.rpn ++ [Out.nl]⟩) := by
  have hsp := spaced_toks e lt hlt
  have h0 := run_layout lt [] [] [] hsp noDigit_nil
  have h1 := run_layout lt [] [] ('\n' :: rest) hsp (noDigit_newline rest)
  rw [List.append_nil] at h0
  have key : ∃ r r' : Result, run (layout lt) [] [] = some r ∧
      run (layout lt ++ '\n' :: rest) [] [] = some r' ∧
      (r'.out = r.out ++ [Out.nl] ∨ r'.out = r.out) := by
    cases hs : steps (lt.map fun x => x.2.stored) [] [] with
    | inl o =>
      obtain ⟨ra, hra⟩ := h0.2 o hs
      obtain ⟨rb, hrb⟩ := h1.2 o hs
      exact ⟨_, _, hra, hrb, Or.inr rfl⟩
    | inr p =>
      obtain ⟨S, O⟩ := p
      refine ⟨finish false [] S O, finish true rest S O, ?_, ?_, finish_out_cases rest S O⟩
      · rw [h0.1 S O hs, run_nil]
      · rw [h1.1 S O hs, run_newline]
  obtain ⟨r, r', hr, hr', hout⟩ := key
  refine ⟨r, r', hr, hr', hout, ?_⟩
  intro hrg hcap
  have e0 := run_expr_eof e lt hst hrg hcap hlt
  have e1 := run_expr e lt rest hst hrg hcap hlt
  rw [hr, Option.some.injEq] at e0
  rw [hr', Option.some.injEq] at e1
  exact ⟨e0, e1⟩

/-- C11, witness: the input `3 + 4 * 5` with and without a newline. -/
theorem C11_end_of_input_flushes_witness :
    ∃ r r' : Result, shunting_yard "3 + 4 * 5".toList = some r ∧
      shunting_yard "3 + 4 * 5\n".toList = some r' ∧
      (r'.out = r.out ++ [Out.nl] ∨ r'.out = r.out) ∧
      (inRange [Lexeme.num 3, Lexeme.sym ADD, Lexeme.num 4, Lexeme.sym MUL, Lexeme.num 5] = true →
        (2 : Nat) ≤ STK_CAP →
        r = ⟨false, [], [Out.num 3, Out.num 4, Out.num 5, Out.name MUL, Out.name ADD]⟩ ∧
        r' = ⟨true, [], [Out.num 3, Out.num 4, Out.num 5, Out.name MUL, Out.name ADD,
          Out.nl]⟩) :=
  C11_end_of_input_flushes
    (Expr.bin (Expr.num 3) Op.add (Expr.bin (Expr.num 4) Op.mul (Expr.num 5)))
    [(0, Lexeme.num 3), (1, Lexeme.sym ADD), (1, Lexeme.num 4), (1, Lexeme.sym MUL),
      (1, Lexeme.num 5)] [] (by decide) (by decide)

/-! ## C12 -/

/-- C12: on a newline as the very next character `shunting_yard` consumes it,
prints nothing but the line terminator and returns `true`, and the driver
goes on with the next line. -/
theorem C12_empty_line :
    (∀ rest : List Char, shunting_yard ('\n' :: rest) = some ⟨true, rest, [Out.nl]⟩) ∧
    (∀ (f : Nat) (rest : List Char) (out : List Out),
      main_loop (f + 1) ('\n' :: rest) out = main_loop f rest (out ++ [Out.prompt, Out.nl])) := by
  have h : ∀ rest : List Char, shunting_yard ('\n' :: rest) = some ⟨true, rest, [Out.nl]⟩ := by
    intro rest
    simp [shunting_yard, loop, finish, drain]
  refine ⟨h, ?_⟩
  intro f rest out
  simp [main_loop, h]

/-! ## C13 -/

theorem lits_append (a b : List Lexeme) : lits (a ++ b) = lits a ++ lits b := by
  induction a with
  | nil => rfl
  | cons x a ih => cases x <;> simp [lits, ih]

/-- C14, the code at the failing input: on a stream that starts with a
newline, alone or after a blank, and goes on with the line `3`, `gettok`
skips the newline as white space and returns the number 3 of the following
line.  So on the input `1 + 2 `, with a blank before the newline, followed
by the line `3`, the two lines are translated as one: the program prints
`> 1 2 3 ADD` and then the last prompt. -/
theorem C14_gettok_reads_past_the_newline :
    gettok "\n3\n".toList = (Token.NUM_T 3, "\n".toList) ∧
    gettok " \n3\n".toList = (Token.NUM_T 3, "\n".toList) ∧
    shunting_yard "1 + 2 \n3\n".toList
      = some ⟨true, [], [Out.num 1, Out.num 2, Out.num 3, Out.name ADD, Out.nl]⟩ ∧
    main "1 + 2 \n3\n".toList
      = some [Out.prompt, Out.num 1, Out.num 2, Out.num 3, Out.name ADD, Out.nl, Out.prompt,
          Out.nl] ∧
    render [Out.prompt, Out.num 1, Out.num 2, Out.num 3, Out.name ADD, Out.nl, Out.prompt,
        Out.nl] = "> 1 2 3 ADD \n> \n" := by
  decide

/-! ## C15 -/

theorem init_wf : CStack.init.wf := by
  simp [CStack.wf, CStack.init]

theorem push_eq (val : Sym) (s : CStack) (h : s.wf) (hs : s.size ≠ STK_CAP) :
    s.push val = (true, ⟨some s.size, s.container.set s.size val, s.size + 1⟩) := by
  obtain ⟨_, _, ht⟩ := h
  unfold CStack.push
  rw [if_neg hs, ht]
  by_cases h0 : s.size = 0
  · simp [h0]
  · have : s.size - 1 + 1 = s.size := by omega
    simp [h0, this]

theorem take_set_succ (l : List Sym) (n : Nat) (v : Sym) (h : n < l.length) :
    (l.set n v).take (n + 1) = l.take n ++ [v] := by
  induction l generalizing n with
  | nil => simp at h
  | cons a l ih =>
    cases n with
    | zero => simp
    | succ n =>
      simp only [List.length_cons, Nat.add_lt_add_iff_right] at h
      simp [List.set, ih n h]

theorem push_wf (val : Sym) (s : CStack) (h : s.wf) : (s.push val).2.wf := by
  by_cases hs : s.size = STK_CAP
  · simpa [CStack.push, hs] using h
  · rw [push_eq val s h hs]
    obtain ⟨hl, hle, _⟩ := h
    refine ⟨by simpa using hl, by simp only; omega, by simp⟩

theorem pop_wf (s : CStack) (h : s.wf) : s.pop.2.wf := by
  obtain ⟨hl, hle, ht⟩ := h
  unfold CStack.pop
  by_cases h0 : s.size = 0
  · simp only [h0, if_true]; exact ⟨hl, by omega, by simpa [h0] using ht⟩
  · by_cases h1 : s.size = 1
    · simp only [h1, if_true]
      exact ⟨hl, by simp, by simp⟩
    · simp only [h0, h1, if_false]
      refine ⟨hl, by simp only; omega, ?_⟩
      have : ¬ (s.size - 1 = 0) := by omega
      simp [ht, h0, this]

theorem symbols_length (s : CStack) (h : s.wf) : s.symbols.length = s.size := by
  simp [CStack.symbols, h.1, h.2.1]

theorem push_symbols (val : Sym) (s : CStack) (h : s.wf) :
    (s.push val).1 = (push val s.symbols).1 ∧
    (s.push val).2.symbols = (push val s.symbols).2 := by
  have hl := h.1
  have hle := h.2.1
  have hlen := symbols_length s h
  by_cases hs : s.size = STK_CAP
  · simp [CStack.push, push, hs, hlen]
  · rw [push_eq val s h hs]
    have hp : push val s.symbols = (true, val :: s.symbols) := by
      simp [push, hlen, hs]
    rw [hp]
    refine ⟨rfl, ?_⟩
    simp only [CStack.symbols]
    rw [take_set_succ _ _ _ (by omega)]
    simp

theorem pop_symbols (s : CStack) (h : s.wf) :
    s.pop.1 = (pop s.symbols).1 ∧ s.pop.2.symbols = (pop s.symbols).2 := by
  have hl := h.1
  have hle := h.2.1
  by_cases h0 : s.size = 0
  · simp [CStack.pop, h0, CStack.symbols, pop]
  · have hsz : s.size - 1 + 1 = s.size := by omega
    have hlt : s.size - 1 < s.container.length := by omega
    have htake : s.container.take s.size
        = s.container.take (s.size - 1) ++ [s.container[s.size - 1]] := by
      conv_lhs => rw [← hsz]
      rw [List.take_succ, List.getElem?_eq_getElem hlt]
      rfl
    have hsym : s.symbols
        = s.container[s.size - 1] :: (s.container.take (s.size - 1)).reverse := by
      simp [CStack.symbols, htake]
    rw [hsym]
    by_cases h1 : s.size = 1
    · simp [CStack.pop, h1, CStack.symbols, pop]
    · simp [CStack.pop, h0, h1, CStack.symbols, pop]
/-- C15: on a stack struct that satisfies its invariant, `push` returns
`false` if and only if `size` equals `STK_CAP`, and then leaves the struct as
it is; otherwise it returns `true`, `size` grows by one, `top` points to the
element that now holds `val`, and every element that was on the stack is
unchanged. -/
theorem C15_push_fails_exactly_at_capacity (val : Sym) (s : CStack) (h : s.wf) :
    ((s.push val).1 = false ↔ s.size = STK_CAP) ∧
    (s.size = STK_CAP → (s.push val).2 = s) ∧
    (s.size ≠ STK_CAP →
      (s.push val).1 = true ∧ (s.push val).2.size = s.size + 1 ∧
      (s.push val).2.top = some s.size ∧ (s.push val).2.container[s.size]? = some val ∧
      (∀ i, i < s.size → (s.push val).2.container[i]? = s.container[i]?) ∧
      (s.push val).2.symbols = val :: s.symbols) := by
  by_cases hs : s.size = STK_CAP
  · refine ⟨by simp [CStack.push, hs], fun _ => by simp [CStack.push, hs], fun hn => absurd hs hn⟩
  · have hlt : s.size < s.container.length := by
      have := h.1
      have := h.2.1
      omega
    have hp := (push_symbols val s h).2
    rw [push_eq val s h hs] at hp ⊢
    refine ⟨by simp [hs], fun he => absurd he hs, fun _ => ⟨rfl, rfl, rfl, ?_, ?_, ?_⟩⟩
    · simp [List.getElem?_set, hlt]
    · intro i hi
      have : s.size ≠ i := by omega
      simp [List.getElem?_set, this]
    · rw [hp]
      simp [push, symbols_length s h, hs]

/-- C15, witness: the first push on the stack that `shunting_yard`
declares. -/
theorem C15_push_fails_exactly_at_capacity_witness :
    ((CStack.init.push LPR).1 = false ↔ CStack.init.size = STK_CAP) ∧
    (CStack.init.size = STK_CAP → (CStack.init.push LPR).2 = CStack.init) ∧
    (CStack.init.size ≠ STK_CAP →
      (CStack.init.push LPR).1 = true ∧ (CStack.init.push LPR).2.size = CStack.init.size + 1 ∧
      (CStack.init.push LPR).2.top = some CStack.init.size ∧
      (CStack.init.push LPR).2.container[CStack.init.size]? = some LPR ∧
      (∀ i, i < CStack.init.size →
        (CStack.init.push LPR).2.container[i]? = CStack.init.container[i]?) ∧
      (CStack.init.push LPR).2.symbols = LPR :: CStack.init.symbols) :=
  C15_push_fails_exactly_at_capacity LPR CStack.init init_wf

/-! ## C16 -/

theorem yields_iff (o : Op) (s : Sym) :
    yields o s = true ↔
      (s ≠ LPR ∧ s ≠ RPR) ∧
        (op_cmp o.sym s < 0 ∨ (op_cmp o.sym s = 0 ∧ SYM_ASSOC s = LASSOC)) := by
  cases o <;> cases s <;> decide

theorem pop_ops_run (o : Op) : ∀ (S : Stack) (out : List Out),
    pop_ops o.sym S out
      = (S.dropWhile (yields o), out ++ (S.takeWhile (yields o)).map Out.name) := by
  intro S
  induction S with
  | nil => intro out; simp [pop_ops]
  | cons s S ih =>
    intro out
    have hy := yields_iff o s
    rw [pop_ops]
    by_cases h1 : s ≠ LPR ∧ s ≠ RPR
    · rw [if_pos h1]
      by_cases h2 : op_cmp o.sym s < 0
      · have : yields o s = true := hy.2 ⟨h1, Or.inl h2⟩
        rw [if_pos h2, pop, ih]
        simp [List.dropWhile_cons, List.takeWhile_cons, this]
      · rw [if_neg h2]
        by_cases h3 : op_cmp o.sym s = 0 ∧ SYM_ASSOC s = LASSOC
        · have : yields o s = true := hy.2 ⟨h1, Or.inr h3⟩
          rw [if_pos h3, pop, ih]
          simp [List.dropWhile_cons, List.takeWhile_cons, this]
        · have : yields o s = false := by
            rw [Bool.eq_false_iff]
            intro hc
            rcases (hy.1 hc).2 with h | h
            · exact h2 h
            · exact h3 h
          rw [if_neg h3]
          simp [List.dropWhile_cons, List.takeWhile_cons, this]
    · have : yields o s = false := by
        rw [Bool.eq_false_iff]
        intro hc
        exact h1 (hy.1 hc).1
      rw [if_neg h1]
      simp [List.dropWhile_cons, List.takeWhile_cons, this]

set_option maxRecDepth 100000 in
/-- C16, counterexample: when `+` is read while the stack holds 1000 `LPR`,
nothing is popped and `+` is not pushed: the stack is the same after the
step.  So the line of 1000 `(` and a `+` prints `MALFORMED EQ` alone, where
the line of 999 `(` and a `+` prints `ADD` before it. -/
theorem C16_counterexample_operator_not_pushed :
    on_sym ADD (List.replicate 1000 LPR) [] = Sum.inr (List.replicate 1000 LPR, []) ∧
    shunting_yard (List.replicate 1000 '(' ++ "+\n".toList)
      = some ⟨true, [], [Out.malformed]⟩ ∧
    shunting_yard (List.replicate 999 '(' ++ "+\n".toList)
      = some ⟨true, [], [Out.name ADD, Out.malformed]⟩ := by
  decide!

/-- C16, amended: the tables rank `^` above `*` and `/` and these above `+`
and `-`, with `^` right-associative and the others left-associative.  On an
operator token `o` with any stack and any output, the operator case of
`shunting_yard` pops and prints, from the top down, exactly the longest run
of stack symbols that are operators of higher precedence than `o`, or of the
same precedence and left-associative, and then pushes `o` on the symbols
below that run, which are unchanged, unless `STK_CAP` symbols are left (the
stack never holds more), in which case nothing is pushed.  A call that reads
`o` after any number of blanks goes on from that stack and that output, and
returns. -/
theorem C16_operator_step :
    (SYM_PREC ADD = SYM_PREC SUB ∧ SYM_PREC SUB < SYM_PREC MUL ∧ SYM_PREC MUL = SYM_PREC DIV ∧
      SYM_PREC DIV < SYM_PREC POW ∧ SYM_ASSOC ADD = LASSOC ∧ SYM_ASSOC SUB = LASSOC ∧
      SYM_ASSOC MUL = LASSOC ∧ SYM_ASSOC DIV = LASSOC ∧ SYM_ASSOC POW = RASSOC) ∧
    (∀ (o : Op) (stk : Stack) (out : List Out),
      on_sym o.sym stk out
        = Sum.inr
            (if (stk.dropWhile (yields o)).length = STK_CAP
              then stk.dropWhile (yields o) else o.sym :: stk.dropWhile (yields o),
             out ++ (stk.takeWhile (yields o)).map Out.name)) ∧
    (∀ (k : Nat) (o : Op) (tail : List Char) (stk : Stack) (out : List Out),
      ∃ r : Result,
        run (blanks k ++ symChar o.sym :: tail) stk out = some r ∧
        run tail
            (if (stk.dropWhile (yields o)).length = STK_CAP
              then stk.dropWhile (yields o) else o.sym :: stk.dropWhile (yields o))
            (out ++ (stk.takeWhile (yields o)).map Out.name) = some r) := by
  have hos : ∀ (o : Op) (stk : Stack) (out : List Out),
      on_sym o.sym stk out
        = Sum.inr
            (if (stk.dropWhile (yields o)).length = STK_CAP
              then stk.dropWhile (yields o) else o.sym :: stk.dropWhile (yields o),
             out ++ (stk.takeWhile (yields o)).map Out.name) := by
    intro o stk out
    have hne1 : o.sym ≠ LPR := by cases o <;> simp [Op.sym]
    have hne2 : o.sym ≠ RPR := by cases o <;> simp [Op.sym]
    by_cases heq : (stk.dropWhile (yields o)).length = STK_CAP
    · simp only [on_sym, hne1, hne2, if_false, pop_ops_run, push, heq, if_true]
    · simp only [on_sym, hne1, hne2, if_false, pop_ops_run, push, heq]
  refine ⟨by decide, hos, ?_⟩
  intro k o tail stk out
  obtain ⟨r, hr, _⟩ := loop_returns (tail.length + 1) tail
    (if (stk.dropWhile (yields o)).length = STK_CAP
      then stk.dropWhile (yields o) else o.sym :: stk.dropWhile (yields o))
    (out ++ (stk.takeWhile (yields o)).map Out.name) (by omega)
  refine ⟨r, ?_, hr⟩
  have h := run_lex_sym k o.sym tail stk out
  simp only [Lexeme.chars, List.append_assoc, List.singleton_append, hos] at h
  rw [h]
  exact hr

/-- C16, witness: `+` read while `MUL`, `ADD` and `LPR` are on the stack. -/
theorem C16_operator_step_witness :
    on_sym ADD [MUL, ADD, LPR] [Out.num 1, Out.num 2, Out.num 3]
      = Sum.inr ([ADD, LPR], [Out.num 1, Out.num 2, Out.num 3, Out.name MUL, Out.name ADD]) ∧
    ∃ r : Result,
      run " + 4\n".toList [MUL, ADD, LPR] [Out.num 1, Out.num 2, Out.num 3] = some r ∧
      run " 4\n".toList [ADD, LPR]
        [Out.num 1, Out.num 2, Out.num 3, Out.name MUL, Out.name ADD] = some r :=
  ⟨C16_operator_step.2.1 Op.add [MUL, ADD, LPR] [Out.num 1, Out.num 2, Out.num 3],
    C16_operator_step.2.2 1 Op.add " 4\n".toList [MUL, ADD, LPR]
      [Out.num 1, Out.num 2, Out.num 3]⟩

/-! ## C17 and C18: the states of the loop -/

theorem reach_run {inp0 inp : List Char} {stk : Stack} {out : List Out}
    (h : Reach inp0 inp stk out) : run inp0 [] [] = run inp stk out := by
  induction h with
  | start => rfl
  | num _ hc hg ih => rw [ih, run_num_t _ _ _ _ _ _ hc hg]
  | sym _ hc hg ho ih => rw [ih, run_sym_t _ _ _ _ _ _ hc hg, ho]

theorem suffix_yields (o : Op) (S : Stack) : S.dropWhile (yields o) <:+ S := by
  induction S with
  | nil => exact List.suffix_refl _
  | cons s S ih =>
    rw [List.dropWhile_cons]
    split
    · exact ih.trans (List.suffix_cons _ _)
    · exact List.suffix_refl _

theorem dropWhile_head (o : Op) (S : Stack) :
    ∀ b ∈ (S.dropWhile (yields o)).head?, yields o b = false := by
  induction S with
  | nil => intro b hb; simp at hb
  | cons s S ih =>
    rw [List.dropWhile_cons]
    split
    · exact ih
    · rename_i hs
      intro b hb
      simp only [List.head?_cons, Option.mem_def, Option.some.injEq] at hb
      subst hb
      simpa using hs

theorem stop_order (o : Op) (b : Sym) (h : yields o b = false) (hb : isOperator b = true) :
    SYM_PREC b ≤ SYM_PREC o.sym ∧
      (SYM_PREC b ≠ SYM_PREC o.sym ∨ SYM_ASSOC o.sym = RASSOC) := by
  revert h hb
  cases o <;> cases b <;> decide

/-- What the `SYM_T` case leaves on the stack when the loop goes on: a
final segment of the old stack, or the symbol read, which is `LPR` or an
operator that the symbol below it does not give way to, on such a
segment. -/
theorem on_sym_shape (s : Sym) (S S' : Stack) (out out' : List Out)
    (h : on_sym s S out = Sum.inr (S', out')) :
    S' <:+ S ∨ ∃ S1, S1 <:+ S ∧ S' = s :: S1 ∧
      (s = LPR ∨ (isOperator s = true ∧ ∀ b ∈ S1.head?, isOperator b = true →
        SYM_PREC b ≤ SYM_PREC s ∧ (SYM_PREC b ≠ SYM_PREC s ∨ SYM_ASSOC s = RASSOC))) := by
  by_cases hL : s = LPR
  · subst hL
    simp only [on_sym, if_true, push, Sum.inr.injEq, Prod.mk.injEq] at h
    by_cases hc : S.length = STK_CAP
    · simp only [hc, if_true] at h
      left
      rw [← h.1]
    · simp only [hc, if_false] at h
      right
      exact ⟨S, List.suffix_refl _, h.1.symm, Or.inl rfl⟩
  · by_cases hR : s = RPR
    · subst hR
      left
      rcases pop_to_lpr_cases S out with ⟨hno, _⟩ | ⟨pre, S2, rfl, hpre, _⟩
      · rw [on_sym_rpr_unmatched S out hno] at h
        cases h
      · rw [on_sym_rpr_matched pre S2 out hpre] at h
        simp only [Sum.inr.injEq, Prod.mk.injEq] at h
        rw [← h.1]
        exact ⟨pre ++ [LPR], by simp⟩
    · obtain ⟨o, rfl⟩ : ∃ o : Op, s = o.sym := by
        cases s
        · exact ⟨Op.add, rfl⟩
        · exact ⟨Op.sub, rfl⟩
        · exact ⟨Op.mul, rfl⟩
        · exact ⟨Op.div, rfl⟩
        · exact ⟨Op.pow, rfl⟩
        · exact absurd rfl hL
        · exact absurd rfl hR
      simp only [on_sym, hL, hR, if_false, pop_ops_run, push, Sum.inr.injEq,
        Prod.mk.injEq] at h
      by_cases hc : (S.dropWhile (yields o)).length = STK_CAP
      · simp only [hc, if_true] at h
        left
        rw [← h.1]
        exact suffix_yields o S
      · simp only [hc, if_false] at h
        right
        refine ⟨S.dropWhile (yields o), suffix_yields o S, h.1.symm, Or.inr ⟨?_, ?_⟩⟩
        · cases o <;> rfl
        · intro b hb hop
          exact stop_order o b (dropWhile_head o S b hb) hop

theorem orderKept_tail (t : Sym) (S : Stack) (h : orderKept (t :: S) = true) :
    orderKept S = true := by
  cases S with
  | nil => rfl
  | cons b S =>
    simp only [orderKept, Bool.and_eq_true] at h
    exact h.2

theorem orderKept_suffix (S S' : Stack) (h : orderKept S = true) (hs : S' <:+ S) :
    orderKept S' = true := by
  induction S with
  | nil =>
    rw [List.suffix_nil] at hs
    rw [hs]
    rfl
  | cons t S ih =>
    rcases List.suffix_cons_iff.1 hs with rfl | hs'
    · exact h
    · exact ih (orderKept_tail t S h) hs'

theorem reach_orderKept {inp0 inp : List Char} {stk : Stack} {out : List Out}
    (h : Reach inp0 inp stk out) : orderKept stk = true := by
  induction h with
  | start => rfl
  | num _ _ _ ih => exact ih
  | @sym c rest inp' s stk stk' out out' _ _ _ ho ih =>
    rcases on_sym_shape s stk stk' out out' ho with hsuf | ⟨S1, hsuf, rfl, hs⟩
    · exact orderKept_suffix stk stk' ih hsuf
    · have h1 := orderKept_suffix stk S1 ih hsuf
      cases S1 with
      | nil => rfl
      | cons b S1 =>
        simp only [orderKept, Bool.and_eq_true, h1, and_true]
        rcases hs with rfl | ⟨_, hb⟩
        · rfl
        · by_cases hop : isOperator b = true
          · have := hb b (by simp) hop
            simp [hop, this.1, this.2]
          · simp [hop]

theorem reach_no_rpr {inp0 inp : List Char} {stk : Stack} {out : List Out}
    (h : Reach inp0 inp stk out) : ∀ x ∈ stk, x = LPR ∨ isOperator x = true := by
  induction h with
  | start => intro x hx; simp at hx
  | num _ _ _ ih => exact ih
  | @sym c rest inp' s stk stk' out out' _ _ _ ho ih =>
    rcases on_sym_shape s stk stk' out out' ho with hsuf | ⟨S1, hsuf, rfl, hs⟩
    · intro x hx
      exact ih x (hsuf.subset hx)
    · intro x hx
      rcases List.mem_cons.1 hx with rfl | hx
      · rcases hs with h | h
        · exact Or.inl h
        · exact Or.inr h.1
      · exact ih x (hsuf.subset hx)

theorem reach_example :
    Reach "( 1 + 2 * 3\n".toList " 3\n".toList [MUL, ADD, LPR] [Out.num 1, Out.num 2] := by
  have h0 : Reach "( 1 + 2 * 3\n".toList ('(' :: " 1 + 2 * 3\n".toList) [] [] := Reach.start
  have h1 : Reach "( 1 + 2 * 3\n".toList (' ' :: "1 + 2 * 3\n".toList) [LPR] [] :=
    Reach.sym h0 (by decide) (show gettok _ = (Token.SYM_T LPR, _) by decide)
      (show on_sym LPR [] [] = Sum.inr ([LPR], []) by decide)
  have h2 : Reach "( 1 + 2 * 3\n".toList (' ' :: "+ 2 * 3\n".toList) [LPR] [Out.num 1] :=
    Reach.num h1 (by decide) (show gettok _ = (Token.NUM_T 1, _) by decide)
  have h3 : Reach "( 1 + 2 * 3\n".toList (' ' :: "2 * 3\n".toList) [ADD, LPR] [Out.num 1] :=
    Reach.sym h2 (by decide) (show gettok _ = (Token.SYM_T ADD, _) by decide)
      (show on_sym ADD [LPR] [Out.num 1] = Sum.inr ([ADD, LPR], [Out.num 1]) by decide)
  have h4 : Reach "( 1 + 2 * 3\n".toList (' ' :: "* 3\n".toList) [ADD, LPR]
      [Out.num 1, Out.num 2] :=
    Reach.num h3 (by decide) (show gettok _ = (Token.NUM_T 2, _) by decide)
  exact Reach.sym h4 (by decide) (show gettok _ = (Token.SYM_T MUL, _) by decide)
    (show on_sym MUL [ADD, LPR] [Out.num 1, Out.num 2]
      = Sum.inr ([MUL, ADD, LPR], [Out.num 1, Out.num 2]) by decide)

/-! ## C17 -/

/-- C17, counterexample: when `( 1 + 2 *` has been read the stack holds,
from the bottom, `LPR`, `ADD`, `MUL`: the newer operator `MUL` has the higher
precedence, so from bottom to top the precedence goes up, not down. -/
theorem C17_counterexample_precedence_goes_up :
    Reach "( 1 + 2 * 3\n".toList " 3\n".toList [MUL, ADD, LPR] [Out.num 1, Out.num 2] ∧
    SYM_PREC ADD < SYM_PREC MUL ∧ orderClaimed [MUL, ADD, LPR] = false :=
  ⟨reach_example, by decide, by decide⟩

/-- C17, amended: in every state in which a call of `shunting_yard` stands at
the head of its loop, on any input, and in every stack that the pops of the
next step leave of it, two operators that lie next to each other (so within
one parenthesis level) are in non-decreasing precedence order from bottom
to top: the newer one has at least the precedence of the older one, and the
same precedence only if it is right-associative. -/
theorem C17_stack_order (inp0 inp : List Char) (stk : Stack) (out : List Out)
    (h : Reach inp0 inp stk out) :
    shunting_yard inp0 = run inp stk out ∧ ∀ S : Stack, S <:+ stk → orderKept S = true :=
  ⟨reach_run h, fun S hS => orderKept_suffix stk S (reach_orderKept h) hS⟩

/-- C17, witness: the state after `( 1 + 2 *`. -/
theorem C17_stack_order_witness :
    shunting_yard "( 1 + 2 * 3\n".toList
      = run " 3\n".toList [MUL, ADD, LPR] [Out.num 1, Out.num 2] ∧
    ∀ S : Stack, S <:+ [MUL, ADD, LPR] → orderKept S = true :=
  C17_stack_order "( 1 + 2 * 3\n".toList " 3\n".toList [MUL, ADD, LPR] [Out.num 1, Out.num 2]
    reach_example

/-! ## C18 -/

/-- C18: in every state in which a call of `shunting_yard` stands at the head
of its loop, on any input, and in every stack that the pops of the next step
or of the final drain leave of it, every symbol on the stack is `LPR` or one
of the five operators, and none is `RPR` (a number cannot be on the stack,
which holds values of the type `Sym`). -/
theorem C18_stack_content (inp0 inp : List Char) (stk : Stack) (out : List Out)
    (h : Reach inp0 inp stk out) :
    shunting_yard inp0 = run inp stk out ∧
    ∀ S : Stack, S <:+ stk →
      ∀ x ∈ S, x ≠ RPR ∧ (x = LPR ∨ x ∈ [ADD, SUB, MUL, DIV, POW]) := by
  refine ⟨reach_run h, ?_⟩
  intro S hS x hx
  have := reach_no_rpr h x (hS.subset hx)
  revert this
  cases x <;> decide

/-- C18, witness: the state after `( 1 + 2 *`. -/
theorem C18_stack_content_witness :
    shunting_yard "( 1 + 2 * 3\n".toList
      = run " 3\n".toList [MUL, ADD, LPR] [Out.num 1, Out.num 2] ∧
    ∀ S : Stack, S <:+ [MUL, ADD, LPR] →
      ∀ x ∈ S, x ≠ RPR ∧ (x = LPR ∨ x ∈ [ADD, SUB, MUL, DIV, POW]) :=
  C18_stack_content "( 1 + 2 * 3\n".toList " 3\n".toList [MUL, ADD, LPR]
    [Out.num 1, Out.num 2] reach_example

end ShuntingYard

/-!
# Theorems about the sieve of Eratosthenes
-/

namespace Eratosthenes

/-! ## The loops of the sieve -/

theorem ok_bind {α β : Type} (a : α) (f : α → Except Fault β) :
    (Except.ok a >>= f) = f a := rfl

theorem marks_refl (v : List Bool) (P : Nat → Prop) (h : ∀ i, i < v.length → ¬ P i) :
    Marks v v P :=
  ⟨rfl, fun i hi => ⟨fun hp => absurd hp (h i hi), fun _ => rfl⟩⟩

theorem marks_trans {v v' v'' : List Bool} {P Q : Nat → Prop} (h1 : Marks v v' P)
    (h2 : Marks v' v'' Q) : Marks v v'' (fun i => P i ∨ Q i) := by
  refine ⟨h2.1.trans h1.1, fun i hi => ⟨?_, ?_⟩⟩
  · intro hpq
    by_cases hq : Q i
    · exact (h2.2 i (by rw [h1.1]; exact hi)).1 hq
    · rw [(h2.2 i (by rw [h1.1]; exact hi)).2 hq]
      rcases hpq with hp | hq'
      · exact (h1.2 i hi).1 hp
      · exact absurd hq' hq
  · intro hpq
    rw [(h2.2 i (by rw [h1.1]; exact hi)).2 (fun hq => hpq (Or.inr hq))]
    exact (h1.2 i hi).2 (fun hp => hpq (Or.inl hp))

theorem marks_congr {v v' : List Bool} {P Q : Nat → Prop} (h : Marks v v' P)
    (hpq : ∀ i, i < v.length → (P i ↔ Q i)) : Marks v v' Q :=
  ⟨h.1, fun i hi => ⟨fun hq => (h.2 i hi).1 ((hpq i hi).2 hq),
    fun hq => (h.2 i hi).2 (fun hp => hq ((hpq i hi).1 hp))⟩⟩

theorem write_ok (v : List Bool) (n : Nat) (h : n < v.length) :
    write v n false = Except.ok (v.set n false) ∧ Marks v (v.set n false) (fun i => i = n) := by
  refine ⟨by simp [write, h], by simp, fun i hi => ⟨?_, ?_⟩⟩
  · intro hin
    subst hin
    simp [List.getElem?_set, hi]
  · intro hin
    have : n ≠ i := fun e => hin e.symm
    simp [List.getElem?_set, this]

theorem toInt_ok (x : Nat) (h : x ≤ INT_MAX) : toInt x = Except.ok x := by
  simp [toInt, h]

theorem evens_ok (f : Nat) : ∀ (n : Nat) (v : List Bool), v.length ≤ SAFE_LEN → 1 ≤ f →
    v.length + 1 ≤ f + n →
    ∃ v', evens f n v = Except.ok v' ∧ Marks v v' (fun i => n ≤ i ∧ (i - n) % 2 = 0) := by
  induction f with
  | zero => intro n v _ h1; omega
  | succ f ih =>
    intro n v hB _ hf
    rw [evens]
    by_cases hn : n < v.length
    · obtain ⟨hw, hm⟩ := write_ok v n hn
      have hi : toInt (n + 2) = Except.ok (n + 2) :=
        toInt_ok _ (by simp only [SAFE_LEN, INT_MAX] at *; omega)
      obtain ⟨v', hv', hm'⟩ := ih (n + 2) (v.set n false) (by simpa using hB) (by omega)
        (by simp only [List.length_set]; omega)
      refine ⟨v', ?_, ?_⟩
      · rw [if_pos hn, hw, ok_bind, hi, ok_bind, hv']
      · refine marks_congr (marks_trans hm hm') ?_
        intro i _
        constructor
        · rintro (h | h) <;> omega
        · intro h
          by_cases hin : i = n
          · exact Or.inl hin
          · exact Or.inr (by omega)
    · refine ⟨v, by rw [if_neg hn], marks_refl v _ ?_⟩
      intro i hi h
      omega

theorem strike_ok (f : Nat) : ∀ (m n : Nat) (v : List Bool), 0 < n → n ≤ v.length →
    v.length ≤ SAFE_LEN → 1 ≤ f → v.length + 1 ≤ f + m →
    ∃ v', strike f m n v = Except.ok v' ∧ Marks v v' (fun i => m ≤ i ∧ n ∣ (i - m)) := by
  induction f with
  | zero => intro m n v _ _ _ h1; omega
  | succ f ih =>
    intro m n v hn hnv hB _ hf
    rw [strike]
    by_cases hm : m < v.length
    · obtain ⟨hw, hmk⟩ := write_ok v m hm
      have hi : toInt (m + n) = Except.ok (m + n) :=
        toInt_ok _ (by simp only [SAFE_LEN, INT_MAX] at *; omega)
      obtain ⟨v', hv', hm'⟩ := ih (m + n) n (v.set m false) hn (by simpa using hnv)
        (by simpa using hB) (by omega) (by simp only [List.length_set]; omega)
      refine ⟨v', ?_, ?_⟩
      · rw [if_pos hm, hw, ok_bind, hi, ok_bind, hv']
      · refine marks_congr (marks_trans hmk hm') ?_
        intro i _
        constructor
        · rintro (h | ⟨h1, h2⟩)
          · subst h
            exact ⟨le_refl _, by simp⟩
          · refine ⟨by omega, ?_⟩
            have : i - m = (i - (m + n)) + n := by omega
            rw [this]
            exact Dvd.dvd.add h2 (dvd_refl n)
        · rintro ⟨h1, h2⟩
          by_cases him : i = m
          · exact Or.inl him
          · right
            have hpos : 0 < i - m := by omega
            have hle := Nat.le_of_dvd hpos h2
            refine ⟨by omega, ?_⟩
            have : i - (m + n) = (i - m) - n := by omega
            rw [this]
            exact Nat.dvd_sub' h2 (dvd_refl n)
    · refine ⟨v, by rw [if_neg hm], marks_refl v _ ?_⟩
      intro i hi h
      omega

theorem struck_succ (n i : Nat) (h3 : 3 ≤ n) (hodd : n % 2 = 1) :
    Struck (n + 2) i ↔ Struck n i ∨ (n * n ≤ i ∧ n ∣ i) := by
  constructor
  · rintro (h | ⟨d, hd2, hdn, hdd, hdi⟩)
    · exact Or.inl (Or.inl h)
    · by_cases h1 : d < n
      · exact Or.inl (Or.inr ⟨d, hd2, h1, hdd, hdi⟩)
      · by_cases h2 : d = n
        · subst h2
          exact Or.inr ⟨hdd, hdi⟩
        · have hd : d = n + 1 := by omega
          subst hd
          have h2d : 2 ∣ n + 1 := by omega
          have hi : 2 * 2 ≤ i := by nlinarith
          exact Or.inl (Or.inr ⟨2, le_refl _, by omega, hi, dvd_trans h2d hdi⟩)
  · rintro ((h | ⟨d, hd2, hdn, hdd, hdi⟩) | ⟨h1, h2⟩)
    · exact Or.inl h
    · exact Or.inr ⟨d, hd2, by omega, hdd, hdi⟩
    · exact Or.inr ⟨n, by omega, by omega, h1, h2⟩

theorem struck_skip (n i : Nat) (h3 : 3 ≤ n) (hn : Struck n n) (h1 : n * n ≤ i) (h2 : n ∣ i) :
    Struck n i := by
  rcases hn with h | ⟨d, hd2, hdn, hdd, hdi⟩
  · omega
  · have : n ≤ n * n := Nat.le_mul_self n
    exact Or.inr ⟨d, hd2, hdn, by omega, dvd_trans hdi h2⟩

theorem struck_final (n i : Nat) (h : i < n * n) : Struck n i ↔ ¬ Nat.Prime i := by
  constructor
  · rintro (h2 | ⟨d, hd2, _, hdd, hdi⟩)
    · intro hp
      have := hp.two_le
      omega
    · intro hp
      rcases (Nat.dvd_prime hp).1 hdi with h1 | h1
      · omega
      · subst h1
        have : d * 2 ≤ d * d := Nat.mul_le_mul_left d hd2
        omega
  · intro hp
    by_cases h2 : i < 2
    · exact Or.inl h2
    · right
      have hpos : 0 < i := by omega
      have hmf := Nat.minFac_sq_le_self hpos hp
      have hmp := Nat.minFac_prime (n := i) (by omega)
      refine ⟨i.minFac, hmp.two_le, ?_, by rw [← sq]; exact hmf, Nat.minFac_dvd i⟩
      by_contra hge
      have : n * n ≤ i.minFac * i.minFac := Nat.mul_le_mul (by omega) (by omega)
      have : i.minFac * i.minFac ≤ i := by rw [← sq]; exact hmf
      omega

theorem size_minus_one (len : Nat) (h1 : 1 ≤ len) (hB : len ≤ SAFE_LEN) :
    (len + SIZE_MOD - 1) % SIZE_MOD = len - 1 := by
  simp only [SIZE_MOD, SAFE_LEN] at *
  omega

theorem read_ok (v : List Bool) (n : Nat) (h : n < v.length) :
    read v n = Except.ok v[n] := by
  simp [read, h]

theorem odds_ok (f : Nat) : ∀ (n : Nat) (v : List Bool), 3 ≤ n → n % 2 = 1 → 1 ≤ v.length →
    v.length ≤ SAFE_LEN → 1 ≤ f → v.length + 1 ≤ f + n →
    (∀ i, i < v.length → (v[i]? = some false ↔ Struck n i)) →
    ∃ v', odds f n v = Except.ok v' ∧ v'.length = v.length ∧
      ∀ i, i < v.length → (v'[i]? = some false ↔ ¬ Nat.Prime i) := by
  induction f with
  | zero => intro n v _ _ _ _ h1; omega
  | succ f ih =>
    intro n v h3 hodd h1 hB _ hf hinv
    have hsz := size_minus_one v.length h1 hB
    rw [odds, hsz]
    by_cases hc : n * n ≤ v.length - 1
    · have hnn : n ≤ n * n := Nat.le_mul_self n
      have hn : n < v.length := by omega
      have hi2 : toInt (n + 2) = Except.ok (n + 2) :=
        toInt_ok _ (by simp only [SAFE_LEN, INT_MAX] at *; omega)
      rw [if_pos hc, read_ok v n hn, ok_bind]
      cases hb : v[n] with
      | false =>
        have hstr : Struck n n := (hinv n hn).1 (by rw [List.getElem?_eq_getElem hn, hb])
        obtain ⟨v', hv', hlen, hres⟩ := ih (n + 2) v (by omega) (by omega) h1 hB (by omega)
          (by omega) (by
            intro i hi
            rw [hinv i hi, struck_succ n i h3 hodd]
            constructor
            · exact Or.inl
            · rintro (h | ⟨ha, hb'⟩)
              · exact h
              · exact struck_skip n i h3 hstr ha hb')
        refine ⟨v', ?_, hlen, hres⟩
        simp only [Bool.not_false, if_true, pure_bind, hi2, ok_bind, hv']
      | true =>
        have hi1 : toInt (n * n) = Except.ok (n * n) :=
          toInt_ok _ (by simp only [SAFE_LEN, INT_MAX] at *; omega)
        obtain ⟨v1, hv1, hm1⟩ := strike_ok (v.length + 1) (n * n) n v (by omega) (by omega) hB
          (by omega) (by omega)
        obtain ⟨v', hv', hlen, hres⟩ := ih (n + 2) v1 (by omega) (by omega)
          (by rw [hm1.1]; exact h1) (by rw [hm1.1]; exact hB) (by omega)
          (by rw [hm1.1]; omega) (by
            intro i hi
            rw [hm1.1] at hi
            rw [struck_succ n i h3 hodd, ← hinv i hi]
            have hdiv : n * n ≤ i → (n ∣ i - n * n ↔ n ∣ i) := by
              intro hle
              constructor
              · intro hd
                have : i = (i - n * n) + n * n := by omega
                rw [this]
                exact Dvd.dvd.add hd (Dvd.intro _ rfl)
              · intro hd
                exact Nat.dvd_sub' hd (Dvd.intro _ rfl)
            by_cases hp : n * n ≤ i ∧ n ∣ i - n * n
            · have := (hm1.2 i hi).1 hp
              simp only [this, true_iff]
              exact Or.inr ⟨hp.1, (hdiv hp.1).1 hp.2⟩
            · rw [(hm1.2 i hi).2 hp]
              constructor
              · exact Or.inl
              · rintro (h | ⟨ha, hb'⟩)
                · exact h
                · exact absurd ⟨ha, (hdiv ha).2 hb'⟩ hp)
        refine ⟨v', ?_, by rw [hlen, hm1.1], ?_⟩
        · simp only [Bool.not_true, Bool.false_eq_true, if_false, hi1, ok_bind, hv1, hi2, hv']
        · intro i hi
          exact hres i (by rw [hm1.1]; exact hi)
    · refine ⟨v, by rw [if_neg hc], rfl, ?_⟩
      intro i hi
      rw [hinv i hi]
      exact struck_final n i (by omega)

theorem struck_three (i : Nat) : Struck 3 i ↔ i = 0 ∨ i = 1 ∨ (4 ≤ i ∧ (i - 4) % 2 = 0) := by
  constructor
  · rintro (h | ⟨d, hd2, hd3, hdd, hdi⟩)
    · omega
    · have hd : d = 2 := by omega
      subst hd
      have := (Nat.dvd_iff_mod_eq_zero ..).1 hdi
      omega
  · intro h
    by_cases h2 : i < 2
    · exact Or.inl h2
    · exact Or.inr ⟨2, le_refl _, by omega, by omega, (Nat.dvd_iff_mod_eq_zero ..).2 (by omega)⟩

theorem eratosthenes_ok (sieve : List Bool) (h1 : 1 ≤ sieve.length)
    (hB : sieve.length ≤ SAFE_LEN) (hall : ∀ b ∈ sieve, b = true) :
    ∃ v', eratosthenes sieve = Except.ok v' ∧ v'.length = sieve.length ∧
      ∀ i, i < sieve.length → (v'[i]? = some false ↔ ¬ Nat.Prime i) := by
  obtain ⟨hw0, hm0⟩ := write_ok sieve 0 (by omega)
  have hs1 : ∃ s1, (if (sieve.set 0 false).length > 1 then write (sieve.set 0 false) 1 false
      else pure (sieve.set 0 false)) = Except.ok s1 ∧
      Marks (sieve.set 0 false) s1 (fun i => i = 1) := by
    by_cases h : (sieve.set 0 false).length > 1
    · obtain ⟨hw1, hm1⟩ := write_ok (sieve.set 0 false) 1 h
      exact ⟨_, by rw [if_pos h, hw1], hm1⟩
    · refine ⟨_, by rw [if_neg h]; rfl, marks_refl _ _ ?_⟩
      intro i hi
      omega
  obtain ⟨s1, hs1eq, hm1⟩ := hs1
  have hl1 : s1.length = sieve.length := by rw [hm1.1]; simp
  obtain ⟨s2, hs2eq, hm2⟩ := evens_ok (s1.length + 1) 4 s1 (by omega) (by omega) (by omega)
  have hm := marks_trans (marks_trans hm0 hm1) hm2
  have hl2 : s2.length = sieve.length := hm.1
  have hinv : ∀ i, i < s2.length → (s2[i]? = some false ↔ Struck 3 i) := by
    intro i hi
    rw [hl2] at hi
    have htrue : sieve[i]? = some true := by
      rw [List.getElem?_eq_getElem hi, hall _ (List.getElem_mem hi)]
    rw [struck_three]
    by_cases hp : (i = 0 ∨ i = 1) ∨ (4 ≤ i ∧ (i - 4) % 2 = 0)
    · have := (hm.2 i hi).1 hp
      simp only [this, true_iff]
      rcases hp with (h | h) | h
      · exact Or.inl h
      · exact Or.inr (Or.inl h)
      · exact Or.inr (Or.inr h)
    · rw [(hm.2 i hi).2 hp, htrue]
      constructor
      · intro h; cases h
      · intro h
        exact absurd (by
          rcases h with h | h | h
          · exact Or.inl (Or.inl h)
          · exact Or.inl (Or.inr h)
          · exact Or.inr h) hp
  obtain ⟨v', hv', hlen, hres⟩ := odds_ok (s2.length + 1) 3 s2 (le_refl _) (by decide)
    (by omega) (by omega) (by omega) (by omega) hinv
  refine ⟨v', ?_, by rw [hlen, hl2], ?_⟩
  · have hpos : sieve.length > 0 := by omega
    unfold eratosthenes
    rw [if_pos hpos, hw0, ok_bind, hs1eq, ok_bind, hs2eq, ok_bind, hv']
  · intro i hi
    exact hres i (by rw [hl2]; exact hi)

theorem odds_safe (f : Nat) : ∀ (n : Nat) (v : List Bool), 1 ≤ n → 1 ≤ v.length →
    v.length ≤ SAFE_LEN → 1 ≤ f → v.length + 1 ≤ f + n →
    ∃ v', odds f n v = Except.ok v' ∧ v'.length = v.length := by
  induction f with
  | zero => intro n v _ _ _ h1; omega
  | succ f ih =>
    intro n v h3 h1 hB _ hf
    have hsz := size_minus_one v.length h1 hB
    rw [odds, hsz]
    by_cases hc : n * n ≤ v.length - 1
    · have hnn : n ≤ n * n := Nat.le_mul_self n
      have hn : n < v.length := by omega
      have hi2 : toInt (n + 2) = Except.ok (n + 2) :=
        toInt_ok _ (by simp only [SAFE_LEN, INT_MAX] at *; omega)
      rw [if_pos hc, read_ok v n hn, ok_bind]
      cases hb : v[n] with
      | false =>
        obtain ⟨v', hv', hlen⟩ := ih (n + 2) v (by omega) h1 hB (by omega) (by omega)
        refine ⟨v', ?_, hlen⟩
        simp only [Bool.not_false, if_true, pure_bind, hi2, ok_bind, hv']
      | true =>
        have hi1 : toInt (n * n) = Except.ok (n * n) :=
          toInt_ok _ (by simp only [SAFE_LEN, INT_MAX] at *; omega)
        obtain ⟨v1, hv1, hm1⟩ := strike_ok (v.length + 1) (n * n) n v (by omega) (by omega) hB
          (by omega) (by omega)
        obtain ⟨v', hv', hlen⟩ := ih (n + 2) v1 (by omega)
          (by rw [hm1.1]; exact h1) (by rw [hm1.1]; exact hB) (by omega)
          (by rw [hm1.1]; omega)
        refine ⟨v', ?_, by rw [hlen, hm1.1]⟩
        simp only [Bool.not_true, Bool.false_eq_true, if_false, hi1, ok_bind, hv1, hi2, hv']
    · exact ⟨v, by rw [if_neg hc], rfl⟩

theorem eratosthenes_safe (sieve : List Bool) (h1 : 1 ≤ sieve.length)
    (hB : sieve.length ≤ SAFE_LEN) :
    ∃ v', eratosthenes sieve = Except.ok v' ∧ v'.length = sieve.length := by
  obtain ⟨hw0, hm0⟩ := write_ok sieve 0 (by omega)
  have hs1 : ∃ s1, (if (sieve.set 0 false).length > 1 then write (sieve.set 0 false) 1 false
      else pure (sieve.set 0 false)) = Except.ok s1 ∧ s1.length = sieve.length := by
    by_cases h : (sieve.set 0 false).length > 1
    · obtain ⟨hw1, hm1⟩ := write_ok (sieve.set 0 false) 1 h
      exact ⟨_, by rw [if_pos h, hw1], by simp⟩
    · exact ⟨_, by rw [if_neg h]; rfl, by simp⟩
  obtain ⟨s1, hs1eq, hl1⟩ := hs1
  obtain ⟨s2, hs2eq, hm2⟩ := evens_ok (s1.length + 1) 4 s1 (by omega) (by omega) (by omega)
  have hl2 : s2.length = sieve.length := hm2.1.trans hl1
  obtain ⟨v', hv', hlen⟩ := odds_safe (s2.length + 1) 3 s2 (by omega) (by omega) (by omega)
    (by omega) (by omega)
  refine ⟨v', ?_, by rw [hlen, hl2]⟩
  have hpos : sieve.length > 0 := by omega
  unfold eratosthenes
  rw [if_pos hpos, hw0, ok_bind, hs1eq, ok_bind, hs2eq, ok_bind, hv']

theorem main_ok :
    ∃ v', main = Except.ok v' ∧ v'.length = 100000000 ∧
      ∀ i, i < 100000000 → (v'[i]? = some false ↔ ¬ Nat.Prime i) := by
  have hl : (List.replicate 100000000 true).length = 100000000 := List.length_replicate _ _
  obtain ⟨v', hv', hlen, hres⟩ := eratosthenes_ok (List.replicate 100000000 true)
    (by have := hl; omega) (by have := hl; simp only [SAFE_LEN]; omega)
    (fun b hb => (List.mem_replicate.1 hb).2)
  rw [hl] at hlen hres
  exact ⟨v', hv', hlen, hres⟩

/-! ## C19 -/

/-- C19: for every vector of length between 1 and 100000000 whose entries are
all `true`, `eratosthenes` returns, without an access outside the vector and
without an `int` overflow, and afterwards the entry number `i` is `true` if and
only if `i` is a prime number. -/
theorem C19_sieve_marks_the_primes (sieve : List Bool) (h1 : 1 ≤ sieve.length)
    (hN : sieve.length ≤ 100000000) (hall : ∀ b ∈ sieve, b = true) :
    ∃ v', eratosthenes sieve = Except.ok v' ∧ v'.length = sieve.length ∧
      ∀ (i : Nat) (hi : i < v'.length), (v'[i] = true ↔ Nat.Prime i) := by
  obtain ⟨v', hv', hlen, hres⟩ := eratosthenes_ok sieve h1
    (by simp only [SAFE_LEN]; omega) hall
  refine ⟨v', hv', hlen, ?_⟩
  intro i hi
  have h := hres i (by rw [← hlen]; exact hi)
  rw [List.getElem?_eq_getElem hi] at h
  cases hb : v'[i] with
  | false =>
    rw [hb] at h
    simp only [Bool.false_eq_true, false_iff]
    exact h.1 rfl
  | true =>
    rw [hb] at h
    simp only [true_iff]
    by_contra hp
    have := h.2 hp
    cases this

/-- C19, witness: the vector of 10 entries. -/
theorem C19_sieve_marks_the_primes_witness :
    ∃ v', eratosthenes (List.replicate 10 true) = Except.ok v' ∧
      v'.length = (List.replicate 10 true).length ∧
      ∀ (i : Nat) (hi : i < v'.length), (v'[i] = true ↔ Nat.Prime i) :=
  C19_sieve_marks_the_primes (List.replicate 10 true) (by decide) (by decide) (by decide)

/-! ## C20 -/

/-- C20, the code at the failing input: on the empty vector the bound
`sieve.size() - 1` of the loop over the odd numbers wraps around to
`SIZE_MOD - 1`, the loop is entered with `n = 3` and reads `sieve[3]` outside
the vector.  On every vector of a length from 1 to `SAFE_LEN`, whatever its
entries, the function returns, so every index it read or wrote was inside the
vector and no `int` overflowed. -/
theorem C20_empty_vector_is_read_outside :
    (0 + SIZE_MOD - 1) % SIZE_MOD = 18446744073709551615 ∧
    eratosthenes [] = Except.error (Fault.outOfBounds 3 0) ∧
    eratosthenes [true] = Except.ok [false] ∧
    ∀ sieve : List Bool, 1 ≤ sieve.length → sieve.length ≤ SAFE_LEN →
      ∃ v', eratosthenes sieve = Except.ok v' ∧ v'.length = sieve.length :=
  ⟨by decide, rfl, rfl, eratosthenes_safe⟩

/-- C20, witness of the last part: a vector of three entries that are not all
`true`. -/
theorem C20_empty_vector_is_read_outside_witness :
    ∃ v', eratosthenes [true, false, true] = Except.ok v' ∧
      v'.length = [true, false, true].length :=
  C20_empty_vector_is_read_outside.2.2.2 [true, false, true] (by decide) (by decide)

end Eratosthenes
